import Mathlib

/-!
# caffe/util/im_transforms.cpp

A shallow embedding of the resize policy, the weighted die, the foreground
crop window, the posterize lookup table and the noise chain of
`im_transforms.cpp`.

`float` values are embedded as rationals.  `UpdateBBoxByResizePolicy`, whose
properties are stated over exact arithmetic, is embedded with exact
operations.  The size computations (`InferNewSize`,
`AspectKeepingResizeAndPad` and the padding of the bbox path that is compared
with it) and the running sums of `roll_weighted_die` are embedded in binary32
arithmetic: every `float` operation is followed by the rounding `f32`.
`int` values are embedded as `Int`, `uchar` values as naturals reduced modulo
256.  Random draws are explicit arguments.
-/

namespace caffe

/-! ## Binary32 arithmetic -/

/-- Rounding of a rational to the nearest integer, ties to the even one. -/
def rne (q : ℚ) : Int :=
  if q - ⌊q⌋ < 1 / 2 then ⌊q⌋
  else if 1 / 2 < q - ⌊q⌋ then ⌊q⌋ + 1
  else if ⌊q⌋ % 2 = 0 then ⌊q⌋ else ⌊q⌋ + 1

/-- The exponent of the last place of the binary32 values around a positive
`x`: 23 below the binary exponent of `x`, and -149 in the subnormal range. -/
def f32_exp (x : ℚ) : Int :=
  max (Int.log 2 x - 23) (-149)

/-- The binary32 value nearest to a positive rational (ties to even). -/
def f32_pos (x : ℚ) : ℚ :=
  (rne (x / 2 ^ f32_exp x) : ℚ) * 2 ^ f32_exp x

/-- The result of a `float` operation whose exact result is `x`: IEEE 754
binary32, round to nearest, ties to even, with 24 significant bits and the
subnormal spacing `2 ^ -149`.  Results of magnitude `2 ^ 128` and above
(infinity in the code) and not-a-number are outside this embedding. -/
def f32 (x : ℚ) : ℚ :=
  if x = 0 then 0 else if 0 < x then f32_pos x else -f32_pos (-x)

/-- The conversion of a `uint32` field to `int` (`int height =
resize_param.height()`): values from `2 ^ 31` wrap to negative ones. -/
def int_of_uint32 (n : Nat) : Int :=
  if n % 2 ^ 32 < 2 ^ 31 then ((n % 2 ^ 32 : Nat) : Int) else ((n % 2 ^ 32 : Nat) : Int) - 2 ^ 32

/-! ## Resize policy -/

/-- The enum `ResizeParameter_Resize_mode`.  The `default:` branch of the
switches over it is unreachable for a value of this type. -/
inductive Resize_mode where
  | WARP
  | FIT_LARGE_SIZE_AND_PAD
  | FIT_SMALL_SIZE
  deriving DecidableEq, Repr

/-- The fields of `ResizeParameter` read by the size and bbox code
(`uint32 height`, `uint32 width`). -/
structure ResizeParameter where
  resize_mode : Resize_mode
  height : Nat
  width : Nat
  deriving DecidableEq, Repr

/-- A `NormalizedBBox`: four float coordinates. -/
structure NormalizedBBox where
  xmin : ℚ
  ymin : ℚ
  xmax : ℚ
  ymax : ℚ
  deriving DecidableEq

/-- All four coordinates of a box lie in `[0, 1]`. -/
def NormalizedBBox.in_unit (b : NormalizedBBox) : Prop :=
  (0 ≤ b.xmin ∧ b.xmin ≤ 1) ∧ (0 ≤ b.ymin ∧ b.ymin ≤ 1) ∧
  (0 ≤ b.xmax ∧ b.xmax ≤ 1) ∧ (0 ≤ b.ymax ∧ b.ymax ≤ 1)

instance (b : NormalizedBBox) : Decidable b.in_unit := by
  unfold NormalizedBBox.in_unit
  infer_instance

/-- The value `orig_aspect = static_cast<float>(old_width) / old_height`. -/
def orig_aspect (old_width old_height : Int) : ℚ :=
  (old_width : ℚ) / (old_height : ℚ)

/-- The value `padding` of the branch `orig_aspect > new_aspect` of
`UpdateBBoxByResizePolicy` (bars above and below):
`(new_height - new_width / orig_aspect) / 2`. -/
def bbox_padding_y (new_width new_height : ℚ) (old_width old_height : Int) : ℚ :=
  (new_height - new_width / orig_aspect old_width old_height) / 2

/-- The value `padding` of the other branch (bars left and right):
`(new_width - orig_aspect * new_height) / 2`. -/
def bbox_padding_x (new_width new_height : ℚ) (old_width old_height : Int) : ℚ :=
  (new_width - orig_aspect old_width old_height * new_height) / 2

/-- The function `UpdateBBoxByResizePolicy`; the box written back through
the pointer is the result. -/
def UpdateBBoxByResizePolicy (param : ResizeParameter)
    (old_width old_height : Int) (bbox : NormalizedBBox) : NormalizedBBox :=
  let new_height : ℚ := (param.height : ℚ)
  let new_width : ℚ := (param.width : ℚ)
  let oa : ℚ := orig_aspect old_width old_height
  let new_aspect : ℚ := new_width / new_height
  let x_min : ℚ := bbox.xmin * (old_width : ℚ)
  let y_min : ℚ := bbox.ymin * (old_height : ℚ)
  let x_max : ℚ := bbox.xmax * (old_width : ℚ)
  let y_max : ℚ := bbox.ymax * (old_height : ℚ)
  match param.resize_mode with
  | Resize_mode.WARP =>
    let x_min := max 0 (x_min * new_width / (old_width : ℚ))
    let x_max := min new_width (x_max * new_width / (old_width : ℚ))
    let y_min := max 0 (y_min * new_height / (old_height : ℚ))
    let y_max := min new_height (y_max * new_height / (old_height : ℚ))
    ⟨x_min / new_width, y_min / new_height, x_max / new_width, y_max / new_height⟩
  | Resize_mode.FIT_LARGE_SIZE_AND_PAD =>
    if oa > new_aspect then
      let padding := bbox_padding_y new_width new_height old_width old_height
      let x_min := max 0 (x_min * new_width / (old_width : ℚ))
      let x_max := min new_width (x_max * new_width / (old_width : ℚ))
      let y_min := y_min * (new_height - 2 * padding) / (old_height : ℚ)
      let y_min := padding + max 0 y_min
      let y_max := y_max * (new_height - 2 * padding) / (old_height : ℚ)
      let y_max := padding + min new_height y_max
      ⟨x_min / new_width, y_min / new_height, x_max / new_width, y_max / new_height⟩
    else
      let padding := bbox_padding_x new_width new_height old_width old_height
      let x_min := x_min * (new_width - 2 * padding) / (old_width : ℚ)
      let x_min := padding + max 0 x_min
      let x_max := x_max * (new_width - 2 * padding) / (old_width : ℚ)
      let x_max := padding + min new_width x_max
      let y_min := max 0 (y_min * new_height / (old_height : ℚ))
      let y_max := min new_height (y_max * new_height / (old_height : ℚ))
      ⟨x_min / new_width, y_min / new_height, x_max / new_width, y_max / new_height⟩
  | Resize_mode.FIT_SMALL_SIZE =>
    if oa < new_aspect then
      let new_height := new_width / oa
      let x_min := max 0 (x_min * new_width / (old_width : ℚ))
      let x_max := min new_width (x_max * new_width / (old_width : ℚ))
      let y_min := max 0 (y_min * new_height / (old_height : ℚ))
      let y_max := min new_height (y_max * new_height / (old_height : ℚ))
      ⟨x_min / new_width, y_min / new_height, x_max / new_width, y_max / new_height⟩
    else
      let new_width := oa * new_height
      let x_min := max 0 (x_min * new_width / (old_width : ℚ))
      let x_max := min new_width (x_max * new_width / (old_width : ℚ))
      let y_min := max 0 (y_min * new_height / (old_height : ℚ))
      let y_max := min new_height (y_max * new_height / (old_height : ℚ))
      ⟨x_min / new_width, y_min / new_height, x_max / new_width, y_max / new_height⟩

/-- The conversion `static_cast<int>` of a float: truncation toward zero. -/
def static_cast_int (q : ℚ) : Int :=
  if 0 ≤ q then ⌊q⌋ else ⌈q⌉

/-- The function `InferNewSize` in binary32 arithmetic; the result is
`(new_width, new_height)`.  `orig_aspect` and `aspect` are rounded quotients
of the converted integers, and the value handed to `static_cast<int>` is the
rounded quotient `width / orig_aspect` or the rounded product
`orig_aspect * height`. -/
def InferNewSize (resize_param : ResizeParameter)
    (old_width old_height : Int) : Int × Int :=
  let height : Int := int_of_uint32 resize_param.height
  let width : Int := int_of_uint32 resize_param.width
  let oa : ℚ := f32 (f32 (old_width : ℚ) / f32 (old_height : ℚ))
  let aspect : ℚ := f32 (f32 (width : ℚ) / f32 (height : ℚ))
  match resize_param.resize_mode with
  | Resize_mode.WARP => (width, height)
  | Resize_mode.FIT_LARGE_SIZE_AND_PAD => (width, height)
  | Resize_mode.FIT_SMALL_SIZE =>
    if oa < aspect then
      (width, static_cast_int (f32 (f32 (width : ℚ) / oa)))
    else
      (static_cast_int (f32 (oa * f32 (height : ℚ))), height)

/-- The geometry that `AspectKeepingResizeAndPad` hands to `cv::resize` and
`cv::copyMakeBorder`: the size of the resized image and the four border
widths. -/
structure PadLayout where
  width : Int
  height : Int
  top : Int
  bottom : Int
  left : Int
  right : Int
  deriving DecidableEq, Repr

/-- The ways `AspectKeepingResizeAndPad` can fail to return: `cv::resize`
asserts that the size it is given is not empty, `cv::copyMakeBorder` that no
border width is negative. -/
inductive PadError where
  | resize_empty_size
  | border_negative
  deriving DecidableEq, Repr

/-- The size and border computation of `AspectKeepingResizeAndPad` for an
input image of `cols` by `rows` pixels, in binary32 arithmetic: the extent of
the resized image is the floor of the rounded quotient
`new_width / orig_aspect` or of the rounded product
`orig_aspect * new_height`; the leading border is
`floor((target - extent) / 2.0)`, computed exactly. -/
def AspectKeepingResizeAndPad (cols rows new_width new_height : Int) :
    Except PadError PadLayout :=
  let oa : ℚ := f32 (f32 (cols : ℚ) / f32 (rows : ℚ))
  let new_aspect : ℚ := f32 (f32 (new_width : ℚ) / f32 (new_height : ℚ))
  if oa > new_aspect then
    let height : Int := ⌊f32 (f32 (new_width : ℚ) / oa)⌋
    if new_width ≤ 0 ∨ height ≤ 0 then Except.error PadError.resize_empty_size
    else
      let padding : Int := ⌊((new_height - height : Int) : ℚ) / 2⌋
      if padding < 0 ∨ new_height - height - padding < 0 then
        Except.error PadError.border_negative
      else Except.ok ⟨new_width, height, padding, new_height - height - padding, 0, 0⟩
  else
    let width : Int := ⌊f32 (oa * f32 (new_height : ℚ))⌋
    if width ≤ 0 ∨ new_height ≤ 0 then Except.error PadError.resize_empty_size
    else
      let padding : Int := ⌊((new_width - width : Int) : ℚ) / 2⌋
      if padding < 0 ∨ new_width - width - padding < 0 then
        Except.error PadError.border_negative
      else Except.ok ⟨width, new_height, 0, 0, padding, new_width - width - padding⟩

/-- The value `padding` of the branch `orig_aspect > new_aspect` of
`UpdateBBoxByResizePolicy` in binary32 arithmetic:
`(new_height - new_width / orig_aspect) / 2`, rounded after the division, the
subtraction and the halving. -/
def padding_y_f32 (width height : Nat) (old_width old_height : Int) : ℚ :=
  let new_height : ℚ := f32 (height : ℚ)
  let new_width : ℚ := f32 (width : ℚ)
  let oa : ℚ := f32 (f32 (old_width : ℚ) / f32 (old_height : ℚ))
  f32 (f32 (new_height - f32 (new_width / oa)) / 2)

/-- The factor `(new_height - 2 * padding)` by which that branch scales
`y_min` and `y_max`, in binary32 arithmetic: the inner extent on the padded
axis. -/
def inner_y_f32 (width height : Nat) (old_width old_height : Int) : ℚ :=
  f32 (f32 (height : ℚ) - f32 (2 * padding_y_f32 width height old_width old_height))

/-- The value `padding` of the other branch in binary32 arithmetic:
`(new_width - orig_aspect * new_height) / 2`. -/
def padding_x_f32 (width height : Nat) (old_width old_height : Int) : ℚ :=
  let new_height : ℚ := f32 (height : ℚ)
  let new_width : ℚ := f32 (width : ℚ)
  let oa : ℚ := f32 (f32 (old_width : ℚ) / f32 (old_height : ℚ))
  f32 (f32 (new_width - f32 (oa * new_height)) / 2)

/-- The factor `(new_width - 2 * padding)` by which the other branch scales
`x_min` and `x_max`, in binary32 arithmetic. -/
def inner_x_f32 (width height : Nat) (old_width old_height : Int) : ℚ :=
  f32 (f32 (width : ℚ) - f32 (2 * padding_x_f32 width height old_width old_height))

/-! ## Weighted die -/

/-- The tail of `std::partial_sum` on `float`s: running sums continuing from
`acc`, each addition rounded to binary32. -/
def partial_sum_from (acc : ℚ) : List ℚ → List ℚ
  | [] => []
  | x :: xs => f32 (acc + x) :: partial_sum_from (f32 (acc + x)) xs

/-- The algorithm `std::partial_sum` with `std::back_inserter` on a
`vector<float>`: the first element, then the running sums accumulated in
binary32. -/
def partial_sum : List ℚ → List ℚ
  | [] => []
  | x :: xs => x :: partial_sum_from x xs

/-- The loop of `std::lower_bound` on the range starting at index `first` of
length `len`: halve the range, going right when `*middle < val`.  The first
argument bounds the number of iterations; `len` shrinks in each, so
`len` iterations are enough. -/
def lower_bound_loop (c : List ℚ) (val : ℚ) : Nat → Nat → Nat → Nat
  | 0, first, _ => first
  | fuel + 1, first, len =>
    if 0 < len then
      let half := len / 2
      let middle := first + half
      if c.getD middle 0 < val then
        lower_bound_loop c val fuel (middle + 1) (len - half - 1)
      else
        lower_bound_loop c val fuel first half
    else first

/-- The call `std::lower_bound(c.begin(), c.end(), val) - c.begin()`. -/
def lower_bound (c : List ℚ) (val : ℚ) : Nat :=
  lower_bound_loop c val c.length 0 c.length

/-- The function `roll_weighted_die`, with the value `val` written by
`caffe_rng_uniform(1, 0, cumulative.back(), &val)` as an argument.
`cumulative.back()` has no defined value on an empty vector: the result is
`none` there.  No other input is refused. -/
def roll_weighted_die (probabilities : List ℚ) (val : ℚ) : Option Nat :=
  let cumulative := partial_sum probabilities
  match cumulative.getLast? with
  | none => none
  | some _ => some (lower_bound cumulative val)

/-- The vector built by `vector<float> binary_probs;
if (param.prob() > 0.0) binary_probs = {1.f-param.prob(), param.prob()};`. -/
def binary_probs (prob : ℚ) : List ℚ :=
  if prob > 0 then [1 - prob, prob] else []

/-- The entry of `ApplyGeometry`: `none` when it returns the input before
any roll (`prob == 0.0`), otherwise the vector handed to the gating
`roll_weighted_die(binary_probs)`. -/
def ApplyGeometry_gate_probs (prob : ℚ) : Option (List ℚ) :=
  if prob = 0 then none else some (binary_probs prob)

/-- The entry of `ApplyNoise`: `none` when it returns the input before any
roll (`prob == 0.0`) or when no effect flag is set (no gate is rolled),
otherwise the vector handed to the gating `roll_weighted_die(binary_probs)`
of the enabled effects. -/
def ApplyNoise_gate_probs (prob : ℚ) (some_effect : Bool) : Option (List ℚ) :=
  if prob = 0 then none
  else if some_effect then some (binary_probs prob) else none

/-- The entry of `ApplyDistort`: `if (param.prob() > 0.0) binary_probs = ...;
else return in_img;`, so `none` for every `prob` that is not positive. -/
def ApplyDistort_gate_probs (prob : ℚ) : Option (List ℚ) :=
  if prob > 0 then some [1 - prob, prob] else none

/-! ## Foreground crop window -/

/-- A `cv::Rect`: corner `(x, y)`, `width` and `height`, all `int`. -/
structure Rect where
  x : Int
  y : Int
  width : Int
  height : Int
  deriving DecidableEq, Repr

/-- A single-channel `cv::Mat` (the mask): `rows`, `cols` and the pixel
`at<T>(row, col)`. -/
structure Mat where
  rows : Int
  cols : Int
  px : Nat → Nat → Nat

/-- A mask given by its rows, top to bottom. -/
def Mat.of_rows (data : List (List Nat)) : Mat :=
  ⟨(data.length : Int), ((data.headD []).length : Int),
    fun r c => (data.getD r []).getD c 0⟩

/-- The ways a call can fail to return: the range assertion of
`cv::Mat::operator()(const Rect&)` throws, or the iteration bound of this
embedding is used up. -/
inductive CvError where
  | roi_out_of_range
  | iteration_bound
  deriving DecidableEq, Repr

/-- The sub-matrix `src(roi)`, as the list of its pixels row by row (the
order in which `clone().reshape(0, 1)` lays them out).  OpenCV asserts
`0 <= roi.x && 0 <= roi.width && roi.x + roi.width <= cols && 0 <= roi.y &&
0 <= roi.height && roi.y + roi.height <= rows` and throws otherwise. -/
def Mat.roi (src : Mat) (r : Rect) : Except CvError (List Nat) :=
  if 0 ≤ r.x ∧ 0 ≤ r.width ∧ r.x + r.width ≤ src.cols ∧
      0 ≤ r.y ∧ 0 ≤ r.height ∧ r.y + r.height ≤ src.rows then
    Except.ok ((List.range r.height.toNat).flatMap fun i =>
      (List.range r.width.toNat).map fun j => src.px (r.y.toNat + i) (r.x.toNat + j))
  else
    Except.error CvError.roi_out_of_range

/-- The function `is_border`: `res &= (color == im.at<T>(0, i))` over all
pixels of the edge. -/
def is_border (edge : List Nat) (color : Nat) : Bool :=
  edge.foldl (fun res v => res && (color == v)) true

/-- The first `do ... while` loop of `CropMask` (bottom side): test the row
`win.height - 2`, shrink `win.height` while it is border. -/
def peel_bottom (src : Mat) (color : Nat) : Nat → Rect → Except CvError Rect
  | 0, _ => Except.error CvError.iteration_bound
  | fuel + 1, win =>
    match src.roi ⟨win.x, win.height - 2, win.width, 1⟩ with
    | Except.error e => Except.error e
    | Except.ok edge =>
      let next := is_border edge color
      let win := if next then { win with height := win.height - 1 } else win
      if next && decide (win.height > 0) then peel_bottom src color fuel win
      else Except.ok win

/-- The second loop (right side): test the column `win.width - 2`, shrink
`win.width` while it is border. -/
def peel_right (src : Mat) (color : Nat) : Nat → Rect → Except CvError Rect
  | 0, _ => Except.error CvError.iteration_bound
  | fuel + 1, win =>
    match src.roi ⟨win.width - 2, win.y, 1, win.height⟩ with
    | Except.error e => Except.error e
    | Except.ok edge =>
      let next := is_border edge color
      let win := if next then { win with width := win.width - 1 } else win
      if next && decide (win.width > 0) then peel_right src color fuel win
      else Except.ok win

/-- The third loop (top side): test the row `win.y`, move `win.y` down and
shrink `win.height` while it is border. -/
def peel_top (src : Mat) (color : Nat) : Nat → Rect → Except CvError Rect
  | 0, _ => Except.error CvError.iteration_bound
  | fuel + 1, win =>
    match src.roi ⟨win.x, win.y, win.width, 1⟩ with
    | Except.error e => Except.error e
    | Except.ok edge =>
      let next := is_border edge color
      let win := if next then { win with y := win.y + 1, height := win.height - 1 } else win
      if next && decide (win.y ≤ src.rows) then peel_top src color fuel win
      else Except.ok win

/-- The fourth loop (left side): test the column `win.x`, move `win.x` right
and shrink `win.width` while it is border. -/
def peel_left (src : Mat) (color : Nat) : Nat → Rect → Except CvError Rect
  | 0, _ => Except.error CvError.iteration_bound
  | fuel + 1, win =>
    match src.roi ⟨win.x, win.y, 1, win.height⟩ with
    | Except.error e => Except.error e
    | Except.ok edge =>
      let next := is_border edge color
      let win := if next then { win with x := win.x + 1, width := win.width - 1 } else win
      if next && decide (win.x ≤ src.cols) then peel_left src color fuel win
      else Except.ok win

/-- The four peeling loops of `CropMask` in sequence, from the full window.
An iteration that does not throw reads an edge inside the mask, so a loop
that shrinks `height` (`width`) runs at most `height` (`width`) times and a
loop that advances `y` (`x`) at most `rows - y + 1` (`cols - x + 1`) times:
the bounds passed here are never used up. -/
def peel (src : Mat) (color : Nat) : Except CvError Rect :=
  let win : Rect := ⟨0, 0, src.cols, src.rows⟩
  match peel_bottom src color (win.height.toNat + 1) win with
  | Except.error e => Except.error e
  | Except.ok win =>
    match peel_right src color (win.width.toNat + 1) win with
    | Except.error e => Except.error e
    | Except.ok win =>
      match peel_top src color ((src.rows - win.y).toNat + 1) win with
      | Except.error e => Except.error e
      | Except.ok win => peel_left src color ((src.cols - win.x).toNat + 1) win

/-- The block `// add padding` of `CropMask`: four updates in sequence, each
reading the window left by the ones before it. -/
def add_padding (src : Mat) (win : Rect) (padding : Int) : Rect :=
  let win := if win.x > padding then { win with x := win.x - padding } else win
  let win := if win.y > padding then { win with y := win.y - padding } else win
  let win := if win.width + win.x + padding < src.cols then
    { win with width := win.width + padding } else win
  let win := if win.height + win.y + padding < src.rows then
    { win with height := win.height + padding } else win
  win

/-- The number `nborder` of `CropMask`: how many of the four tested edges
`Rect(0, 0, cols, 1)`, `Rect(cols-2, 0, 1, rows)`, `Rect(0, rows-2, cols, 1)`
and `Rect(0, 0, 1, rows)` are uniformly of the colour `src.at<T>(0, 0)`. -/
def count_border_edges (src : Mat) : Except CvError Nat :=
  let color := src.px 0 0
  match src.roi ⟨0, 0, src.cols, 1⟩ with
  | Except.error e => Except.error e
  | Except.ok e0 =>
    match src.roi ⟨src.cols - 2, 0, 1, src.rows⟩ with
    | Except.error e => Except.error e
    | Except.ok e1 =>
      match src.roi ⟨0, src.rows - 2, src.cols, 1⟩ with
      | Except.error e => Except.error e
      | Except.ok e2 =>
        match src.roi ⟨0, 0, 1, src.rows⟩ with
        | Except.error e => Except.error e
        | Except.ok e3 =>
          Except.ok ((is_border e0 color).toNat + (is_border e1 color).toNat
            + (is_border e2 color).toNat + (is_border e3 color).toNat)

/-- The function `CropMask`.  The argument `point` is not read by the
source. -/
def CropMask (src : Mat) (_point : Nat) (padding : Int) : Except CvError Rect :=
  let win : Rect := ⟨0, 0, src.cols, src.rows⟩
  let color := src.px 0 0
  match count_border_edges src with
  | Except.error e => Except.error e
  | Except.ok nborder =>
    if nborder < 4 then Except.ok win
    else
      match peel src color with
      | Except.error e => Except.error e
      | Except.ok win => Except.ok (add_padding src win padding)

/-- The outer edge of a mask named in the crop contract: the whole row `r`
or the whole column `c` is of the colour of the top-left pixel. -/
def Mat.row_uniform (src : Mat) (r : Nat) : Bool :=
  (List.range src.cols.toNat).all fun c => src.px r c == src.px 0 0

/-- The whole column `c` is of the colour of the top-left pixel. -/
def Mat.col_uniform (src : Mat) (c : Nat) : Bool :=
  (List.range src.rows.toNat).all fun r => src.px r c == src.px 0 0

/-- A 4x4 mask whose bottom-right corner pixel and one inner pixel differ
from the colour 0 of the top-left pixel. -/
def mask_corner_speck : Mat :=
  Mat.of_rows [[0, 0, 0, 0], [0, 255, 0, 0], [0, 0, 0, 0], [0, 0, 0, 255]]

/-- A 7x7 mask of colour 0 with the single foreground pixel (3, 3). -/
def mask_centre_dot : Mat :=
  Mat.of_rows [[0, 0, 0, 0, 0, 0, 0], [0, 0, 0, 0, 0, 0, 0], [0, 0, 0, 0, 0, 0, 0],
    [0, 0, 0, 255, 0, 0, 0], [0, 0, 0, 0, 0, 0, 0], [0, 0, 0, 0, 0, 0, 0],
    [0, 0, 0, 0, 0, 0, 0]]

/-! ## Posterize -/

/-- The table entry `p[i] = i / div * div + div_2` of `colorReduce`, stored
as `uchar`: the `int` value is reduced modulo 256. -/
def lookUpTable (div : Nat) (i : Nat) : Nat :=
  (i / div * div + div / 2) % 256

/-- The function `colorReduce`: `cv::LUT` replaces every 8-bit sample `v` of
the image (all channels) by the table entry `p[v]`. -/
def colorReduce (image : List Nat) (div : Nat) : List Nat :=
  image.map (lookUpTable div)

/-! ## Pad colour of `ApplyResize` -/

/-- The ways the pad-colour block of `ApplyResize` can fail: the `CHECK` on
the number of pad values aborts, or an index is read that the vector
`pad_values` does not have. -/
inductive ResizeError where
  | check_failed
  | read_out_of_range
  deriving DecidableEq, Repr

/-- The vector `pad_values` that `ApplyResize` builds when
`param.pad_value_size() > 0` and the `CHECK` passes: the configured values,
followed, when the image has more than one channel and one value is given,
by `pad_values[0]` once for each `c` with `1 <= c < img_channels`. -/
def pad_values (img_channels : Nat) (pad_value : List ℚ) : List ℚ :=
  if img_channels > 1 ∧ pad_value.length = 1 then
    pad_value ++ (List.range (img_channels - 1)).map fun _ => pad_value.getD 0 0
  else pad_value

/-- The pad colour `pad_val` of `ApplyResize`: `cv::Scalar(0, 0, 0)` without
pad values, otherwise `cv::Scalar(pad_values[0], pad_values[1],
pad_values[2])`; each of the three reads needs its index to exist. -/
def ApplyResize_pad_val (img_channels : Nat) (pad_value : List ℚ) :
    Except ResizeError (ℚ × ℚ × ℚ) :=
  if pad_value.length > 0 then
    if pad_value.length = 1 ∨ pad_value.length = img_channels then
      match (pad_values img_channels pad_value)[0]?,
          (pad_values img_channels pad_value)[1]?,
          (pad_values img_channels pad_value)[2]? with
      | some v0, some v1, some v2 => Except.ok (v0, v1, v2)
      | _, _, _ => Except.error ResizeError.read_out_of_range
    else Except.error ResizeError.check_failed
  else Except.ok (0, 0, 0)

/-- A 2x2 mask that is entirely of one colour. -/
def mask_uniform : Mat :=
  Mat.of_rows [[0, 0], [0, 0]]

/-! ## Noise chain -/

/-- An 8-bit image `cv::Mat`: `rows`, `cols`, `channels()` and the sample of
a channel at a row and a column. -/
structure Image where
  rows : Nat
  cols : Nat
  channels : Nat
  px : Nat → Nat → Nat → Nat

/-- A default-constructed `cv::Mat` (`cv::Mat out_img;`): no rows, no
columns, and `channels()` is `CV_MAT_CN(MAGIC_VAL) = 1`. -/
def empty_Mat : Image :=
  ⟨0, 0, 1, fun _ _ _ => 0⟩

/-- The image with the sample of channel `ch` at row `j`, column `i`
replaced by `v` (`ptr[i] = v` with `ptr = image->ptr(j)`). -/
def Image.set (image : Image) (j i ch v : Nat) : Image :=
  { image with px := fun r c k => if r = j ∧ c = i ∧ k = ch then v else image.px r c k }

/-- The fields of `NoiseParameter`; `saltpepper_fraction` and
`saltpepper_value` are `saltpepper_param().fraction()` and the repeated
`saltpepper_param().value`. -/
structure NoiseParameter where
  prob : ℚ
  decolorize : Bool
  hist_eq : Bool
  inverse : Bool
  gauss_blur : Bool
  posterize : Bool
  erode : Bool
  saltpepper : Bool
  clahe : Bool
  convert_to_hsv : Bool
  convert_to_lab : Bool
  all_effects : Bool
  jpeg : Int
  saltpepper_fraction : ℚ
  saltpepper_value : List Nat

/-- What `ApplyNoise` takes from outside `im_transforms.cpp`: the OpenCV
operations of its stages, each as a function on images, and the default
argument `div` of `colorReduce` declared in `im_transforms.hpp`. -/
structure External where
  cvtColor_BGR2GRAY : Image → Image
  cvtColor_GRAY2BGR : Image → Image
  GaussianBlur : Image → Image
  equalizeHist_luma : Image → Image
  equalizeHist : Image → Image
  clahe_luma : Image → Image
  clahe : Image → Image
  jpeg_round_trip : Int → Image → Image
  erode : Image → Image
  bitwise_not : Image → Image
  cvtColor_BGR2HSV : Image → Image
  convert_Lab : Image → Image
  colorReduce_div : Nat

/-- The ways `ApplyNoise` can fail to return an image: the die is rolled on
an empty vector, a `CHECK` aborts, or a vector is read at an index it does
not have. -/
inductive NoiseError where
  | die_on_empty_vector
  | check_failed
  | read_out_of_range
  deriving DecidableEq, Repr

/-- The function `constantNoise` for one `k`: the column `i` and the row `j`
are two successive values of `caffe_rng_rand()`, reduced modulo `cols` and
`rows`; a single-channel image gets `val[0]`, a three-channel image `val[0]`,
`val[1]`, `val[2]`, any other image is left as it is. -/
def constantNoise_step (val : List Nat) (rand : Nat → Nat) (k : Nat) (image : Image) :
    Except NoiseError Image :=
  let i := rand (2 * k) % image.cols
  let j := rand (2 * k + 1) % image.rows
  if image.channels = 1 then
    match val[0]? with
    | some v0 => Except.ok (image.set j i 0 v0)
    | none => Except.error NoiseError.read_out_of_range
  else if image.channels = 3 then
    match val[0]?, val[1]?, val[2]? with
    | some v0, some v1, some v2 =>
      Except.ok (((image.set j i 0 v0).set j i 1 v1).set j i 2 v2)
    | _, _, _ => Except.error NoiseError.read_out_of_range
  else Except.ok image

/-- The loop `for (int k = ...; k < n; ++k)` of `constantNoise` with `m`
iterations left. -/
def constantNoise_from (val : List Nat) (rand : Nat → Nat) :
    Nat → Nat → Image → Except NoiseError Image
  | 0, _, image => Except.ok image
  | m + 1, k, image =>
    match constantNoise_step val rand k image with
    | Except.error e => Except.error e
    | Except.ok image => constantNoise_from val rand m (k + 1) image

/-- The function `constantNoise`; the image written through the pointer is
the result. -/
def constantNoise (n : Int) (val : List Nat) (rand : Nat → Nat) (image : Image) :
    Except NoiseError Image :=
  constantNoise_from val rand n.toNat 0 image

/-- The vector `noise_values` of the salt-and-pepper block: empty without
configured values; otherwise, after the `CHECK` that there is one value or
one per channel, the values converted to `uchar`, the single value repeated
for the further channels. -/
def noise_values (channels : Nat) (value : List Nat) : Except NoiseError (List Nat) :=
  if value.length > 0 then
    if value.length = 1 ∨ value.length = channels then
      let noise_values := value.map fun v => v % 256
      if channels > 1 ∧ value.length = 1 then
        Except.ok (noise_values ++
          (List.range (channels - 1)).map fun _ => noise_values.getD 0 0)
      else Except.ok noise_values
    else Except.error NoiseError.check_failed
  else Except.ok []

/-- The block of `ApplyNoise` under `if (saltpepper)`: build `noise_values`,
then `constantNoise` with `floor(fraction * cols * rows)` pixels. -/
def saltpepper_block (fraction : ℚ) (value : List Nat) (rand : Nat → Nat)
    (out_img : Image) : Except NoiseError Image :=
  match noise_values out_img.channels value with
  | Except.error e => Except.error e
  | Except.ok vals =>
    let noise_pixels_num : Int := ⌊fraction * (out_img.cols : ℚ) * (out_img.rows : ℚ)⌋
    constantNoise noise_pixels_num vals rand out_img

/-- The gate `if (flag) flag = (roll_weighted_die(binary_probs) == 1);`.  The
`k`-th roll of a call takes the draw `uniform k`; the result is the new flag
and the number of rolls made so far. -/
def noise_gate (flag : Bool) (probs : List ℚ) (uniform : Nat → ℚ) (k : Nat) :
    Except NoiseError (Bool × Nat) :=
  if flag then
    match roll_weighted_die probs (uniform k) with
    | none => Except.error NoiseError.die_on_empty_vector
    | some i => Except.ok (i == 1, k + 1)
  else Except.ok (false, k)

/-- The first stage of `ApplyNoise`: the gate of `decolorize`, then
`if (decolorize && out_img.channels() > 1)` the conversion of `in_img` to
gray and back, `else out_img = in_img`.  The matrix `out_img` tested here is
still the default-constructed one. -/
def decolorize_stage (cv : External) (decolorize : Bool) (probs : List ℚ)
    (uniform : Nat → ℚ) (in_img : Image) : Except NoiseError (Image × Nat) :=
  let out_img := empty_Mat
  match noise_gate decolorize probs uniform 0 with
  | Except.error e => Except.error e
  | Except.ok (decolorize, k) =>
    if decolorize && decide (out_img.channels > 1) then
      Except.ok (cv.cvtColor_GRAY2BGR (cv.cvtColor_BGR2GRAY in_img), k)
    else Except.ok (in_img, k)

/-- A later gated stage of `ApplyNoise`: the gate of its flag, then the
effect on `out_img` when the gate says so. -/
def gated_stage (flag : Bool) (probs : List ℚ) (uniform : Nat → ℚ)
    (effect : Image → Except NoiseError Image) (st : Image × Nat) :
    Except NoiseError (Image × Nat) :=
  match noise_gate flag probs uniform st.2 with
  | Except.error e => Except.error e
  | Except.ok (go, k) =>
    if go then
      match effect st.1 with
      | Except.error e => Except.error e
      | Except.ok out_img => Except.ok (out_img, k)
    else Except.ok (st.1, k)

/-- The stage `if (param.jpeg() > 0 && out_img.channels() > 1)`, which no
flag and no roll gates. -/
def jpeg_stage (cv : External) (jpeg : Int) (st : Image × Nat) : Image × Nat :=
  if jpeg > 0 ∧ st.1.channels > 1 then (cv.jpeg_round_trip jpeg st.1, st.2) else st

/-- The table of `colorReduce` applied to every sample of an image. -/
def Image.colorReduce (image : Image) (div : Nat) : Image :=
  { image with px := fun r c k => lookUpTable div (image.px r c k) }

/-- The function `ApplyNoise`.  The `k`-th roll of the die takes the draw
`uniform k`, the calls of `caffe_rng_rand()` take the values of `rand`. -/
def ApplyNoise (cv : External) (param : NoiseParameter) (uniform : Nat → ℚ)
    (rand : Nat → Nat) (in_img : Image) : Except NoiseError Image :=
  if param.prob = 0 then Except.ok in_img
  else
    let probs := binary_probs param.prob
    let enabled (flag : Bool) : Bool := flag || param.all_effects
    match decolorize_stage cv (enabled param.decolorize) probs uniform in_img with
    | Except.error e => Except.error e
    | Except.ok st =>
    match gated_stage (enabled param.gauss_blur) probs uniform
        (fun img => Except.ok (cv.GaussianBlur img)) st with
    | Except.error e => Except.error e
    | Except.ok st =>
    match gated_stage (enabled param.hist_eq) probs uniform
        (fun img => Except.ok
          (if img.channels > 1 then cv.equalizeHist_luma img else cv.equalizeHist img)) st with
    | Except.error e => Except.error e
    | Except.ok st =>
    match gated_stage (enabled param.clahe) probs uniform
        (fun img => Except.ok
          (if img.channels > 1 then cv.clahe_luma img else cv.clahe img)) st with
    | Except.error e => Except.error e
    | Except.ok st =>
    match gated_stage (enabled param.erode) probs uniform
        (fun img => Except.ok (cv.erode img)) (jpeg_stage cv param.jpeg st) with
    | Except.error e => Except.error e
    | Except.ok st =>
    match gated_stage (enabled param.posterize) probs uniform
        (fun img => Except.ok (img.colorReduce cv.colorReduce_div)) st with
    | Except.error e => Except.error e
    | Except.ok st =>
    match gated_stage (enabled param.inverse) probs uniform
        (fun img => Except.ok (cv.bitwise_not img)) st with
    | Except.error e => Except.error e
    | Except.ok st =>
    match gated_stage (enabled param.saltpepper) probs uniform
        (saltpepper_block param.saltpepper_fraction param.saltpepper_value rand) st with
    | Except.error e => Except.error e
    | Except.ok st =>
    match gated_stage (enabled param.convert_to_hsv) probs uniform
        (fun img => Except.ok
          (if img.channels > 1 then cv.cvtColor_BGR2HSV img else img)) st with
    | Except.error e => Except.error e
    | Except.ok st =>
    match gated_stage (enabled param.convert_to_lab) probs uniform
        (fun img => Except.ok
          (if img.channels > 1 then cv.convert_Lab img else img)) st with
    | Except.error e => Except.error e
    | Except.ok st => Except.ok st.1

/-- All ten effect flags and `all_effects` of a `NoiseParameter` are
false. -/
def NoiseParameter.no_effects (param : NoiseParameter) : Prop :=
  param.decolorize = false ∧ param.hist_eq = false ∧ param.inverse = false ∧
  param.gauss_blur = false ∧ param.posterize = false ∧ param.erode = false ∧
  param.saltpepper = false ∧ param.clahe = false ∧ param.convert_to_hsv = false ∧
  param.convert_to_lab = false ∧ param.all_effects = false

/-- A stand-in for the operations outside the file in which every operation
returns its argument, except the JPEG round trip, which is lossy: it rounds
every sample down to a multiple of 8. -/
def cv_lossy_jpeg : External :=
  { cvtColor_BGR2GRAY := id, cvtColor_GRAY2BGR := id, GaussianBlur := id,
    equalizeHist_luma := id, equalizeHist := id, clahe_luma := id, clahe := id,
    jpeg_round_trip := fun _ img => { img with px := fun r c k => img.px r c k / 8 * 8 },
    erode := id, bitwise_not := id, cvtColor_BGR2HSV := id, convert_Lab := id,
    colorReduce_div := 64 }

/-- A `NoiseParameter` with every flag false, `prob = 1/2`, JPEG quality 90,
salt-and-pepper fraction 0 and no fill values. -/
def param_only_jpeg : NoiseParameter :=
  { prob := 1 / 2, decolorize := false, hist_eq := false, inverse := false,
    gauss_blur := false, posterize := false, erode := false, saltpepper := false,
    clahe := false, convert_to_hsv := false, convert_to_lab := false,
    all_effects := false, jpeg := 90, saltpepper_fraction := 0, saltpepper_value := [] }

/-- A `NoiseParameter` with `prob = 1` and only `decolorize` set; no JPEG
round trip (`jpeg = -1`). -/
def param_only_decolorize : NoiseParameter :=
  { prob := 1, decolorize := true, hist_eq := false, inverse := false,
    gauss_blur := false, posterize := false, erode := false, saltpepper := false,
    clahe := false, convert_to_hsv := false, convert_to_lab := false,
    all_effects := false, jpeg := -1, saltpepper_fraction := 0, saltpepper_value := [] }

/-- A three-channel image of one pixel with the samples (7, 7, 7). -/
def image_one_pixel : Image :=
  ⟨1, 1, 3, fun _ _ _ => 7⟩

/-- A single-channel image of one row and two columns with the samples 7
and 9. -/
def image_two_pixels : Image :=
  ⟨1, 2, 1, fun _ c _ => if c = 0 then 7 else 9⟩

/-- The position `(r, c)` is one of those drawn by the iterations
`k, ..., k + m - 1` of `constantNoise` on an image of `rows` by `cols`. -/
def drawn (rand : Nat → Nat) (rows cols k m r c : Nat) : Prop :=
  ∃ t, k ≤ t ∧ t < k + m ∧ r = rand (2 * t + 1) % rows ∧ c = rand (2 * t) % cols

/-- The pixel at row `r`, column `c` lies in the mask and is not of the
colour of the top-left pixel. -/
def Mat.foreground (src : Mat) (r c : Nat) : Prop :=
  (r : Int) < src.rows ∧ (c : Int) < src.cols ∧ src.px r c ≠ src.px 0 0

/-- The top row, the bottom row, the left column and the right column of the
mask are uniformly of the colour of the top-left pixel. -/
def Mat.frame_uniform (src : Mat) : Prop :=
  (∀ c : Nat, (c : Int) < src.cols →
      src.px 0 c = src.px 0 0 ∧ src.px (src.rows - 1).toNat c = src.px 0 0)
  ∧ (∀ r : Nat, (r : Int) < src.rows →
      src.px r 0 = src.px 0 0 ∧ src.px r (src.cols - 1).toNat = src.px 0 0)

/-- The window lies within the bounds of the mask. -/
def Rect.inside (win : Rect) (src : Mat) : Prop :=
  0 ≤ win.x ∧ 0 ≤ win.y ∧ 0 ≤ win.width ∧ 0 ≤ win.height
  ∧ win.x + win.width ≤ src.cols ∧ win.y + win.height ≤ src.rows

/-- The window contains the pixel at row `r`, column `c`. -/
def Rect.contains (win : Rect) (r c : Nat) : Prop :=
  win.x ≤ (c : Int) ∧ (c : Int) < win.x + win.width
  ∧ win.y ≤ (r : Int) ∧ (r : Int) < win.y + win.height

/-- All pixels of the mask inside the rectangle are of the given colour. -/
def Mat.region_is (src : Mat) (r : Rect) (color : Nat) : Prop :=
  ∀ rr cc : Nat, r.y ≤ (rr : Int) → (rr : Int) < r.y + r.height →
    r.x ≤ (cc : Int) → (cc : Int) < r.x + r.width → src.px rr cc = color

/-! ## Theorems: binary32 arithmetic -/

/-- Rounding leaves an integer as it is. -/
theorem rne_intCast (k : Int) : rne (k : ℚ) = k := by
  simp [rne]

/-- Rounding does not go below the floor. -/
theorem rne_floor_le (q : ℚ) : ⌊q⌋ ≤ rne q := by
  unfold rne
  split_ifs <;> omega

/-- Rounding does not go above the floor plus one. -/
theorem rne_le_floor_succ (q : ℚ) : rne q ≤ ⌊q⌋ + 1 := by
  unfold rne
  split_ifs <;> omega

/-- Rounding to the nearest integer is monotone. -/
theorem rne_mono {q r : ℚ} (h : q ≤ r) : rne q ≤ rne r := by
  have hf : ⌊q⌋ ≤ ⌊r⌋ := Int.floor_mono h
  rcases lt_or_eq_of_le hf with hlt | heq
  · have h1 := rne_le_floor_succ q
    have h2 := rne_floor_le r
    omega
  · unfold rne
    rw [heq]
    have hd : q - (⌊r⌋ : ℚ) ≤ r - (⌊r⌋ : ℚ) := by linarith
    split_ifs <;> first | omega | (exfalso; linarith)

/-- Rounding does not cross an integer above. -/
theorem rne_le_of_le_int {q : ℚ} {k : Int} (h : q ≤ (k : ℚ)) : rne q ≤ k := by
  have := rne_mono h
  rwa [rne_intCast] at this

/-- Rounding does not cross an integer below. -/
theorem rne_ge_of_int_le {q : ℚ} {k : Int} (h : (k : ℚ) ≤ q) : k ≤ rne q := by
  have := rne_mono h
  rwa [rne_intCast] at this

/-- Powers of two are positive. -/
theorem two_zpow_pos (e : Int) : (0 : ℚ) < 2 ^ e := zpow_pos (by norm_num) e

/-- The last-place exponent is at least -149. -/
theorem f32_exp_ge (x : ℚ) : -149 ≤ f32_exp x := le_max_right _ _

/-- A value is below `2 ^ 24` units of its last place. -/
theorem lt_two_zpow_f32_exp {x : ℚ} : x < 2 ^ (f32_exp x + 24) := by
  have h1 : x < ((2 : ℕ) : ℚ) ^ (Int.log 2 x + 1) := Int.lt_zpow_succ_log_self (by norm_num) x
  have h2 : Int.log 2 x + 1 ≤ f32_exp x + 24 := by
    have : Int.log 2 x - 23 ≤ f32_exp x := le_max_left _ _
    omega
  have h3 : ((2 : ℕ) : ℚ) ^ (Int.log 2 x + 1) ≤ ((2 : ℕ) : ℚ) ^ (f32_exp x + 24) :=
    zpow_le_zpow_right₀ (by norm_num) h2
  have h4 := lt_of_lt_of_le h1 h3
  simpa using h4

/-- Outside the subnormal range a positive value is at least `2 ^ 23` units of its
last place. -/
theorem two_zpow_f32_exp_le {x : ℚ} (hx : 0 < x) (hn : f32_exp x ≠ -149) :
    (2 : ℚ) ^ (f32_exp x + 23) ≤ x := by
  have he : f32_exp x = Int.log 2 x - 23 := by
    unfold f32_exp at hn ⊢
    rcases max_cases (Int.log 2 x - 23) (-149) with ⟨h, _⟩ | ⟨h, _⟩
    · exact h
    · exact absurd h hn
  have h1 : ((2 : ℕ) : ℚ) ^ Int.log 2 x ≤ x := Int.zpow_log_le_self (by norm_num) hx
  have h2 : f32_exp x + 23 = Int.log 2 x := by omega
  rw [h2]
  simpa using h1

/-- The last-place exponent grows with the value. -/
theorem f32_exp_mono {x y : ℚ} (hx : 0 < x) (h : x ≤ y) : f32_exp x ≤ f32_exp y := by
  unfold f32_exp
  have := Int.log_mono_right (b := 2) hx h
  exact max_le_max (by omega) (le_refl _)

/-- The last-place exponent of a value between `2 ^ (e + 23)` and `2 ^ (e + 24)`
is `e`. -/
theorem f32_exp_eq {x : ℚ} {e : Int} (hx : 0 < x) (he : -149 ≤ e)
    (h1 : (2 : ℚ) ^ (e + 23) ≤ x) (h2 : x < 2 ^ (e + 24)) : f32_exp x = e := by
  have a1 : e + 23 ≤ Int.log 2 x := by
    apply (Int.zpow_le_iff_le_log (b := 2) (by norm_num) hx).1
    simpa using h1
  have a2 : Int.log 2 x < e + 24 := by
    apply (Int.lt_zpow_iff_log_lt (b := 2) (by norm_num) hx).1
    simpa using h2
  unfold f32_exp
  rw [max_eq_left (by omega)]
  omega

/-- The binary32 value nearest to a positive rational is not negative. -/
theorem f32_pos_nonneg {x : ℚ} (hx : 0 < x) : 0 ≤ f32_pos x := by
  unfold f32_pos
  have hq : ((0 : Int) : ℚ) ≤ x / 2 ^ f32_exp x := by
    simpa using (div_pos hx (two_zpow_pos _)).le
  have := rne_ge_of_int_le hq
  have h2 : (0 : ℚ) ≤ (rne (x / 2 ^ f32_exp x) : ℚ) := by exact_mod_cast this
  exact mul_nonneg h2 (two_zpow_pos _).le

/-- The binary32 value nearest to `x` is at most `2 ^ 24` units of the last place
of `x`. -/
theorem f32_pos_le {x : ℚ} : f32_pos x ≤ 2 ^ (f32_exp x + 24) := by
  unfold f32_pos
  have hp := two_zpow_pos (f32_exp x)
  have hq : x / 2 ^ f32_exp x ≤ ((2 ^ 24 : Int) : ℚ) := by
    rw [div_le_iff₀ hp]
    have := (lt_two_zpow_f32_exp (x := x)).le
    rw [zpow_add₀ (by norm_num : (2 : ℚ) ≠ 0)] at this
    push_cast
    have e : (2 : ℚ) ^ (24 : Int) = 2 ^ 24 := by norm_num
    rw [e] at this
    linarith
  have := rne_le_of_le_int hq
  have h2 : (rne (x / 2 ^ f32_exp x) : ℚ) ≤ ((2 ^ 24 : Int) : ℚ) := by exact_mod_cast this
  rw [zpow_add₀ (by norm_num : (2 : ℚ) ≠ 0)]
  have e : (2 : ℚ) ^ (24 : Int) = 2 ^ 24 := by norm_num
  rw [e]
  push_cast at h2
  nlinarith

/-- Outside the subnormal range the binary32 value nearest to `x` is at least
`2 ^ 23` units of the last place of `x`. -/
theorem le_f32_pos {x : ℚ} (hx : 0 < x) (hn : f32_exp x ≠ -149) :
    (2 : ℚ) ^ (f32_exp x + 23) ≤ f32_pos x := by
  unfold f32_pos
  have hp := two_zpow_pos (f32_exp x)
  have e : (2 : ℚ) ^ (23 : Int) = 2 ^ 23 := by norm_num
  have hq : ((2 ^ 23 : Int) : ℚ) ≤ x / 2 ^ f32_exp x := by
    rw [le_div_iff₀ hp]
    have := two_zpow_f32_exp_le hx hn
    rw [zpow_add₀ (by norm_num : (2 : ℚ) ≠ 0), e] at this
    push_cast
    linarith
  have := rne_ge_of_int_le hq
  have h2 : ((2 ^ 23 : Int) : ℚ) ≤ (rne (x / 2 ^ f32_exp x) : ℚ) := by exact_mod_cast this
  rw [zpow_add₀ (by norm_num : (2 : ℚ) ≠ 0), e]
  push_cast at h2
  nlinarith

/-- Rounding to binary32 is monotone on positive rationals. -/
theorem f32_pos_mono {x y : ℚ} (hx : 0 < x) (h : x ≤ y) : f32_pos x ≤ f32_pos y := by
  have hy : 0 < y := lt_of_lt_of_le hx h
  have he := f32_exp_mono hx h
  rcases lt_or_eq_of_le he with hlt | heq
  · have h1 := f32_pos_le (x := x)
    have hn : f32_exp y ≠ -149 := by
      have := f32_exp_ge x
      omega
    have h2 := le_f32_pos hy hn
    have h3 : (2 : ℚ) ^ (f32_exp x + 24) ≤ 2 ^ (f32_exp y + 23) :=
      zpow_le_zpow_right₀ (by norm_num) (by omega)
    linarith
  · unfold f32_pos
    rw [heq]
    have hp := two_zpow_pos (f32_exp y)
    have hq : x / 2 ^ f32_exp y ≤ y / 2 ^ f32_exp y := div_le_div_of_nonneg_right h hp.le
    have := rne_mono hq
    have h2 : (rne (x / 2 ^ f32_exp y) : ℚ) ≤ (rne (y / 2 ^ f32_exp y) : ℚ) := by
      exact_mod_cast this
    exact mul_le_mul_of_nonneg_right h2 hp.le

/-- Rounding to binary32 is monotone. -/
theorem f32_mono {x y : ℚ} (h : x ≤ y) : f32 x ≤ f32 y := by
  unfold f32
  rcases lt_trichotomy x 0 with hx | hx | hx
  · rcases lt_trichotomy y 0 with hy | hy | hy
    · have h1 : ¬ x = 0 := ne_of_lt hx
      have h2 : ¬ 0 < x := not_lt.2 hx.le
      have h3 : ¬ y = 0 := ne_of_lt hy
      have h4 : ¬ 0 < y := not_lt.2 hy.le
      simp only [h1, h2, h3, h4, if_false]
      have := f32_pos_mono (x := -y) (y := -x) (by linarith) (by linarith)
      linarith
    · have h1 : ¬ x = 0 := ne_of_lt hx
      have h2 : ¬ 0 < x := not_lt.2 hx.le
      simp only [h1, h2, hy, if_false, if_true]
      have := f32_pos_nonneg (x := -x) (by linarith)
      linarith
    · have h1 : ¬ x = 0 := ne_of_lt hx
      have h2 : ¬ 0 < x := not_lt.2 hx.le
      have h3 : ¬ y = 0 := ne_of_gt hy
      simp only [h1, h2, h3, hy, if_false, if_true]
      have := f32_pos_nonneg (x := -x) (by linarith)
      have := f32_pos_nonneg hy
      linarith
  · have hy : 0 ≤ y := by linarith
    rcases lt_or_eq_of_le hy with hy | hy
    · have h3 : ¬ y = 0 := ne_of_gt hy
      simp only [hx, h3, hy, if_false, if_true]
      exact f32_pos_nonneg hy
    · simp only [hx, ← hy, if_true, le_refl]
  · have hy : 0 < y := lt_of_lt_of_le hx h
    have h1 : ¬ x = 0 := ne_of_gt hx
    have h3 : ¬ y = 0 := ne_of_gt hy
    simp only [h1, h3, hx, hy, if_false, if_true]
    exact f32_pos_mono hx h

/-- The significand of the rounded value lies between 0 and `2 ^ 24`. -/
theorem rne_scaled_bounds {x : ℚ} (hx : 0 < x) :
    0 ≤ rne (x / 2 ^ f32_exp x) ∧ rne (x / 2 ^ f32_exp x) ≤ 2 ^ 24 := by
  have hp := two_zpow_pos (f32_exp x)
  constructor
  · have hq : ((0 : Int) : ℚ) ≤ x / 2 ^ f32_exp x := by
      simpa using (div_pos hx hp).le
    exact rne_ge_of_int_le hq
  · have hq : x / 2 ^ f32_exp x ≤ ((2 ^ 24 : Int) : ℚ) := by
      rw [div_le_iff₀ hp]
      have := (lt_two_zpow_f32_exp (x := x)).le
      rw [zpow_add₀ (by norm_num : (2 : ℚ) ≠ 0)] at this
      push_cast
      have e : (2 : ℚ) ^ (24 : Int) = 2 ^ 24 := by norm_num
      rw [e] at this
      linarith
    exact rne_le_of_le_int hq

/-- A positive integer of at most 24 bits times a power of two from `2 ^ -149` is
a binary32 value. -/
theorem f32_pos_repr (m e : Int) (hm0 : 0 < m) (hm : m ≤ 2 ^ 24) (he : -149 ≤ e) :
    f32_pos ((m : ℚ) * 2 ^ e) = (m : ℚ) * 2 ^ e := by
  have hpe := two_zpow_pos e
  have hmq : (0 : ℚ) < (m : ℚ) := by exact_mod_cast hm0
  have hx : (0 : ℚ) < (m : ℚ) * 2 ^ e := mul_pos hmq hpe
  have e24 : (2 : ℚ) ^ (24 : Int) = 2 ^ 24 := by norm_num
  have e23 : (2 : ℚ) ^ (23 : Int) = 2 ^ 23 := by norm_num
  have key : ∃ k : Int, (m : ℚ) * 2 ^ e / 2 ^ f32_exp ((m : ℚ) * 2 ^ e) = (k : ℚ) := by
    rcases lt_or_eq_of_le hm with hlt | heq
    · have hmq2 : (m : ℚ) < 2 ^ 24 := by exact_mod_cast hlt
      have hx2 : (m : ℚ) * 2 ^ e < 2 ^ (e + 24) := by
        rw [zpow_add₀ (by norm_num : (2 : ℚ) ≠ 0), e24]
        nlinarith
      have hlog : Int.log 2 ((m : ℚ) * 2 ^ e) < e + 24 := by
        apply (Int.lt_zpow_iff_log_lt (b := 2) (by norm_num) hx).1
        simpa using hx2
      have hE : f32_exp ((m : ℚ) * 2 ^ e) ≤ e := by
        unfold f32_exp
        exact max_le (by omega) he
      obtain ⟨n, hn⟩ := Int.eq_ofNat_of_zero_le (sub_nonneg.2 hE)
      refine ⟨m * 2 ^ n, ?_⟩
      rw [mul_div_assoc, ← zpow_sub₀ (by norm_num : (2 : ℚ) ≠ 0), hn]
      push_cast
      rw [zpow_natCast]
    · refine ⟨2 ^ 23, ?_⟩
      have hmq3 : (m : ℚ) = 2 ^ 24 := by exact_mod_cast heq
      have hxe : (m : ℚ) * 2 ^ e = 2 ^ (e + 1 + 23) := by
        rw [hmq3, zpow_add₀ (by norm_num : (2 : ℚ) ≠ 0), zpow_add₀ (by norm_num : (2 : ℚ) ≠ 0),
          e23]
        norm_num
        ring
      have hE : f32_exp ((m : ℚ) * 2 ^ e) = e + 1 := by
        apply f32_exp_eq hx (by omega)
        · rw [hxe]
        · rw [hxe]
          exact zpow_lt_zpow_right₀ (by norm_num) (by omega)
      rw [hE, hxe, zpow_add₀ (by norm_num : (2 : ℚ) ≠ 0) (e + 1) 23, e23]
      have := two_zpow_pos (e + 1)
      field_simp
  obtain ⟨k, hk⟩ := key
  unfold f32_pos
  rw [hk, rne_intCast, ← hk]
  have := two_zpow_pos (f32_exp ((m : ℚ) * 2 ^ e))
  field_simp

/-- An integer of magnitude at most `2 ^ 24` times a power of two from
`2 ^ -149` is a binary32 value: rounding leaves it as it is. -/
theorem f32_repr (m e : Int) (hm : |m| ≤ 2 ^ 24) (he : -149 ≤ e) :
    f32 ((m : ℚ) * 2 ^ e) = (m : ℚ) * 2 ^ e := by
  have hpe := two_zpow_pos e
  rcases lt_trichotomy m 0 with h | h | h
  · have hmq : (m : ℚ) < 0 := by exact_mod_cast h
    have hx : (m : ℚ) * 2 ^ e < 0 := mul_neg_of_neg_of_pos hmq hpe
    have h1 : ¬ (m : ℚ) * 2 ^ e = 0 := ne_of_lt hx
    have h2 : ¬ 0 < (m : ℚ) * 2 ^ e := not_lt.2 hx.le
    unfold f32
    simp only [h1, h2, if_false]
    have hneg : -((m : ℚ) * 2 ^ e) = ((-m : Int) : ℚ) * 2 ^ e := by push_cast; ring
    rw [hneg, f32_pos_repr (-m) e (by omega) (by have := abs_le.1 hm; omega) he]
    push_cast
    ring
  · subst h
    simp [f32]
  · have hmq : (0 : ℚ) < (m : ℚ) := by exact_mod_cast h
    have hx : 0 < (m : ℚ) * 2 ^ e := mul_pos hmq hpe
    have h1 : ¬ (m : ℚ) * 2 ^ e = 0 := ne_of_gt hx
    unfold f32
    simp only [h1, hx, if_false, if_true]
    exact f32_pos_repr m e h (by have := abs_le.1 hm; omega) he

/-- Integers of magnitude at most `2 ^ 24` are binary32 values. -/
theorem f32_int (n : Int) (h : |n| ≤ 2 ^ 24) : f32 (n : ℚ) = (n : ℚ) := by
  have := f32_repr n 0 h (by norm_num)
  simpa using this

/-- Halves of integers of magnitude at most `2 ^ 24` are binary32 values. -/
theorem f32_half_int (n : Int) (h : |n| ≤ 2 ^ 24) : f32 ((n : ℚ) / 2) = (n : ℚ) / 2 := by
  have := f32_repr n (-1) h (by norm_num)
  have e : (2 : ℚ) ^ (-1 : Int) = 1 / 2 := by norm_num
  rw [e] at this
  have e2 : (n : ℚ) * (1 / 2) = (n : ℚ) / 2 := by ring
  rwa [e2] at this

/-- A rounded value is a binary32 value: rounding it again changes nothing. -/
theorem f32_idem (x : ℚ) : f32 (f32 x) = f32 x := by
  rcases lt_trichotomy x 0 with hx | hx | hx
  · have h1 : ¬ x = 0 := ne_of_lt hx
    have h2 : ¬ 0 < x := not_lt.2 hx.le
    have hv : f32 x = ((-(rne (-x / 2 ^ f32_exp (-x))) : Int) : ℚ) * 2 ^ f32_exp (-x) := by
      unfold f32
      simp only [h1, h2, if_false, f32_pos]
      push_cast
      ring
    obtain ⟨b1, b2⟩ := rne_scaled_bounds (x := -x) (by linarith)
    rw [hv]
    exact f32_repr _ _ (by rw [abs_le]; constructor <;> omega) (f32_exp_ge _)
  · subst hx
    simp [f32]
  · have h1 : ¬ x = 0 := ne_of_gt hx
    have hv : f32 x = ((rne (x / 2 ^ f32_exp x) : Int) : ℚ) * 2 ^ f32_exp x := by
      unfold f32
      simp only [h1, hx, if_false, if_true, f32_pos]
    obtain ⟨b1, b2⟩ := rne_scaled_bounds hx
    rw [hv]
    exact f32_repr _ _ (by rw [abs_le]; constructor <;> omega) (f32_exp_ge _)

/-- The rounding of a positive value with known last-place exponent. -/
theorem f32_eval (x : ℚ) (e k : Int) (hx : 0 < x) (he : -149 ≤ e)
    (h1 : (2 : ℚ) ^ (e + 23) ≤ x) (h2 : x < 2 ^ (e + 24)) (hk : rne (x / 2 ^ e) = k) :
    f32 x = (k : ℚ) * 2 ^ e := by
  have hE := f32_exp_eq hx he h1 h2
  have hne : ¬ x = 0 := ne_of_gt hx
  unfold f32
  simp only [hne, hx, if_false, if_true, f32_pos, hE, hk]

/-- The rounding of a value with known floor. -/
theorem rne_eval (q : ℚ) (f : Int) (h1 : (f : ℚ) ≤ q) (h2 : q < (f : ℚ) + 1) :
    rne q = if q - f < 1 / 2 then f
      else if 1 / 2 < q - f then f + 1 else if f % 2 = 0 then f else f + 1 := by
  have hf : ⌊q⌋ = f := Int.floor_eq_iff.2 ⟨h1, h2⟩
  unfold rne
  rw [hf]

/-- Zero is a binary32 value. -/
@[simp]
theorem f32_zero : f32 0 = 0 := by
  simp [f32]

/-- One is a binary32 value. -/
@[simp]
theorem f32_one : f32 1 = 1 := by
  simpa using f32_int 1 (by norm_num)

/-- Rounding does not cross a binary32 value: a value between two binary32
values rounds to a value between them. -/
theorem f32_between {a b y : ℚ} (ha : f32 a = a) (hb : f32 b = b) (h1 : a ≤ y) (h2 : y ≤ b) :
    a ≤ f32 y ∧ f32 y ≤ b := by
  constructor
  · have := f32_mono h1
    rwa [ha] at this
  · have := f32_mono h2
    rwa [hb] at this

/-! ## Theorems: resize policy -/

/-- Scaling a pixel coordinate `a * old` by `new / old` gives `a * new`. -/
theorem scale_cancel (a n o : ℚ) (ho : 0 < o) : a * o * n / o = a * n := by
  field_simp
  ring

/-- A lower-clamped scaled coordinate, normalised, is the coordinate. -/
theorem clamp_min_id (a n o : ℚ) (ho : 0 < o) (hn : 0 < n) (ha : 0 ≤ a) :
    max 0 (a * o * n / o) / n = a := by
  rw [scale_cancel a n o ho, max_eq_right (mul_nonneg ha hn.le)]
  field_simp

/-- An upper-clamped scaled coordinate, normalised, is the coordinate. -/
theorem clamp_max_id (a n o : ℚ) (ho : 0 < o) (hn : 0 < n) (ha : a ≤ 1) :
    min n (a * o * n / o) / n = a := by
  rw [scale_cancel a n o ho, min_eq_right (by nlinarith)]
  field_simp

/-- A lower-clamped scaled coordinate, normalised, lies in the unit interval
when the coordinate does. -/
theorem clamp_min_unit (a n o : ℚ) (ho : 0 < o) (hn : 0 < n) (ha : 0 ≤ a)
    (ha1 : a ≤ 1) : 0 ≤ max 0 (a * o * n / o) / n ∧ max 0 (a * o * n / o) / n ≤ 1 := by
  rw [clamp_min_id a n o ho hn ha]; exact ⟨ha, ha1⟩

/-- An upper-clamped scaled coordinate, normalised, lies in the unit interval
when the coordinate does. -/
theorem clamp_max_unit (a n o : ℚ) (ho : 0 < o) (hn : 0 < n) (ha : 0 ≤ a)
    (ha1 : a ≤ 1) : 0 ≤ min n (a * o * n / o) / n ∧ min n (a * o * n / o) / n ≤ 1 := by
  rw [clamp_max_id a n o ho hn ha1]; exact ⟨ha, ha1⟩

/-- C1: in WARP mode, over exact arithmetic, a box with `0 ≤ xmin`,
`xmax ≤ 1`, `0 ≤ ymin` and `ymax ≤ 1` (in particular every box with
`0 ≤ xmin ≤ xmax ≤ 1` and `0 ≤ ymin ≤ ymax ≤ 1`) is written back unchanged
for all positive old and target dimensions; the full-image box stays the
full-image box, and warping 100x50 to 50x50 keeps (0.2, 0.2, 0.8, 0.8). -/
theorem warp_bbox_unchanged (height width : Nat) (old_width old_height : Int)
    (bbox : NormalizedBBox)
    (hh : 0 < height) (hw : 0 < width) (how : 0 < old_width) (hoh : 0 < old_height)
    (hx0 : 0 ≤ bbox.xmin) (hx1 : bbox.xmax ≤ 1)
    (hy0 : 0 ≤ bbox.ymin) (hy1 : bbox.ymax ≤ 1) :
    UpdateBBoxByResizePolicy ⟨Resize_mode.WARP, height, width⟩ old_width old_height bbox
      = bbox
    ∧ UpdateBBoxByResizePolicy ⟨Resize_mode.WARP, height, width⟩ old_width old_height
        ⟨0, 0, 1, 1⟩ = ⟨0, 0, 1, 1⟩
    ∧ UpdateBBoxByResizePolicy ⟨Resize_mode.WARP, 50, 50⟩ 100 50
        ⟨1/5, 1/5, 4/5, 4/5⟩ = ⟨1/5, 1/5, 4/5, 4/5⟩ := by
  have hH : (0 : ℚ) < (height : ℚ) := by exact_mod_cast hh
  have hW : (0 : ℚ) < (width : ℚ) := by exact_mod_cast hw
  have hOW : (0 : ℚ) < (old_width : ℚ) := by exact_mod_cast how
  have hOH : (0 : ℚ) < (old_height : ℚ) := by exact_mod_cast hoh
  have key : ∀ b : NormalizedBBox, 0 ≤ b.xmin → b.xmax ≤ 1 → 0 ≤ b.ymin → b.ymax ≤ 1 →
      UpdateBBoxByResizePolicy ⟨Resize_mode.WARP, height, width⟩ old_width old_height b
        = b := by
    intro b h1 h2 h3 h4
    cases b with
    | mk x0 y0 x1 y1 =>
      simp only [UpdateBBoxByResizePolicy]
      simp only at h1 h2 h3 h4
      rw [clamp_min_id x0 _ _ hOW hW h1, clamp_min_id y0 _ _ hOH hH h3,
        clamp_max_id x1 _ _ hOW hW h2, clamp_max_id y1 _ _ hOH hH h4]
  refine ⟨key bbox hx0 hx1 hy0 hy1, key ⟨0, 0, 1, 1⟩ ?_ ?_ ?_ ?_, ?_⟩
  · simp
  · simp
  · simp
  · simp
  · simp only [UpdateBBoxByResizePolicy]
    norm_num

/-- Witness for C1: a 640x480 image warped to 300x300 with the box
(0.1, 0.25, 0.5, 0.75). -/
theorem warp_bbox_unchanged_witness :
    UpdateBBoxByResizePolicy ⟨Resize_mode.WARP, 300, 300⟩ 640 480 ⟨1/10, 1/4, 1/2, 3/4⟩
      = ⟨1/10, 1/4, 1/2, 3/4⟩ :=
  (warp_bbox_unchanged 300 300 640 480 ⟨1/10, 1/4, 1/2, 3/4⟩ (by decide) (by decide)
    (by decide) (by decide) (by norm_num) (by norm_num) (by norm_num) (by norm_num)).1

/-- On the padded axis, a coordinate in `[0, 1]` scaled by the inner extent
`n - 2 * p`, clamped below and shifted by the offset `p`, stays in `[0, n]`. -/
theorem pad_min_unit (a n o p : ℚ) (ho : 0 < o) (hn : 0 < n) (hp : 0 ≤ p)
    (hp2 : 2 * p ≤ n) (ha : 0 ≤ a) (ha1 : a ≤ 1) :
    0 ≤ (p + max 0 (a * o * (n - 2 * p) / o)) / n ∧
      (p + max 0 (a * o * (n - 2 * p) / o)) / n ≤ 1 := by
  rw [scale_cancel a _ o ho]
  have hI : 0 ≤ n - 2 * p := by linarith
  rw [max_eq_right (mul_nonneg ha hI)]
  constructor
  · exact div_nonneg (add_nonneg hp (mul_nonneg ha hI)) hn.le
  · rw [div_le_one hn]
    nlinarith

/-- On the padded axis, a coordinate in `[0, 1]` scaled by the inner extent
`n - 2 * p`, clamped above and shifted by the offset `p`, stays in `[0, n]`. -/
theorem pad_max_unit (a n o p : ℚ) (ho : 0 < o) (hn : 0 < n) (hp : 0 ≤ p)
    (hp2 : 2 * p ≤ n) (ha : 0 ≤ a) (ha1 : a ≤ 1) :
    0 ≤ (p + min n (a * o * (n - 2 * p) / o)) / n ∧
      (p + min n (a * o * (n - 2 * p) / o)) / n ≤ 1 := by
  rw [scale_cancel a _ o ho]
  have hI : 0 ≤ n - 2 * p := by linarith
  have ht : a * (n - 2 * p) ≤ n := by nlinarith
  rw [min_eq_right ht]
  constructor
  · exact div_nonneg (add_nonneg hp (mul_nonneg ha hI)) hn.le
  · rw [div_le_one hn]
    nlinarith

/-- With bars above and below, the offset of the bbox path is non-negative
and at most half the target height. -/
theorem bbox_padding_y_bounds (W H : ℚ) (ow oh : Int) (hW : 0 < W) (hH : 0 < H)
    (how : 0 < ow) (hoh : 0 < oh) (h : orig_aspect ow oh > W / H) :
    0 ≤ bbox_padding_y W H ow oh ∧ 2 * bbox_padding_y W H ow oh ≤ H := by
  have hOW : (0 : ℚ) < (ow : ℚ) := by exact_mod_cast how
  have hOH : (0 : ℚ) < (oh : ℚ) := by exact_mod_cast hoh
  have hoa : 0 < orig_aspect ow oh := div_pos hOW hOH
  have h1 : W < orig_aspect ow oh * H := by
    have := (div_lt_iff₀ hH).1 h
    linarith
  have h2 : W / orig_aspect ow oh < H := by
    rw [div_lt_iff₀ hoa]; linarith
  have h3 : 0 ≤ W / orig_aspect ow oh := (div_pos hW hoa).le
  unfold bbox_padding_y
  constructor <;> linarith

/-- With bars left and right, the offset of the bbox path is non-negative
and at most half the target width. -/
theorem bbox_padding_x_bounds (W H : ℚ) (ow oh : Int) (hH : 0 < H)
    (how : 0 < ow) (hoh : 0 < oh) (h : ¬ orig_aspect ow oh > W / H) :
    0 ≤ bbox_padding_x W H ow oh ∧ 2 * bbox_padding_x W H ow oh ≤ W := by
  have hOW : (0 : ℚ) < (ow : ℚ) := by exact_mod_cast how
  have hOH : (0 : ℚ) < (oh : ℚ) := by exact_mod_cast hoh
  have hoa : 0 < orig_aspect ow oh := div_pos hOW hOH
  have h1 : orig_aspect ow oh * H ≤ W := by
    have := (le_div_iff₀ hH).1 (not_lt.1 h)
    linarith
  have h3 : 0 ≤ orig_aspect ow oh * H := (mul_pos hoa hH).le
  unfold bbox_padding_x
  constructor <;> linarith

/-- C2: in each of the three resize modes, for positive old and target
dimensions and an input box whose four coordinates lie in `[0, 1]`, the four
coordinates written back lie in `[0, 1]` (exact arithmetic). -/
theorem bbox_stays_in_unit (mode : Resize_mode) (height width : Nat)
    (old_width old_height : Int) (bbox : NormalizedBBox)
    (hh : 0 < height) (hw : 0 < width) (how : 0 < old_width) (hoh : 0 < old_height)
    (hb : bbox.in_unit) :
    (UpdateBBoxByResizePolicy ⟨mode, height, width⟩ old_width old_height bbox).in_unit := by
  have hH : (0 : ℚ) < (height : ℚ) := by exact_mod_cast hh
  have hW : (0 : ℚ) < (width : ℚ) := by exact_mod_cast hw
  have hOW : (0 : ℚ) < (old_width : ℚ) := by exact_mod_cast how
  have hOH : (0 : ℚ) < (old_height : ℚ) := by exact_mod_cast hoh
  have hoa : 0 < orig_aspect old_width old_height := div_pos hOW hOH
  obtain ⟨⟨a1, a2⟩, ⟨b1, b2⟩, ⟨c1, c2⟩, ⟨d1, d2⟩⟩ := hb
  cases mode with
  | WARP =>
    simp only [UpdateBBoxByResizePolicy, NormalizedBBox.in_unit]
    exact ⟨clamp_min_unit _ _ _ hOW hW a1 a2, clamp_min_unit _ _ _ hOH hH b1 b2,
      clamp_max_unit _ _ _ hOW hW c1 c2, clamp_max_unit _ _ _ hOH hH d1 d2⟩
  | FIT_LARGE_SIZE_AND_PAD =>
    simp only [UpdateBBoxByResizePolicy]
    split_ifs with hc
    · obtain ⟨p0, p2⟩ := bbox_padding_y_bounds _ _ _ _ hW hH how hoh hc
      simp only [NormalizedBBox.in_unit]
      exact ⟨clamp_min_unit _ _ _ hOW hW a1 a2, pad_min_unit _ _ _ _ hOH hH p0 p2 b1 b2,
        clamp_max_unit _ _ _ hOW hW c1 c2, pad_max_unit _ _ _ _ hOH hH p0 p2 d1 d2⟩
    · obtain ⟨p0, p2⟩ := bbox_padding_x_bounds _ _ _ _ hH how hoh hc
      simp only [NormalizedBBox.in_unit]
      exact ⟨pad_min_unit _ _ _ _ hOW hW p0 p2 a1 a2, clamp_min_unit _ _ _ hOH hH b1 b2,
        pad_max_unit _ _ _ _ hOW hW p0 p2 c1 c2, clamp_max_unit _ _ _ hOH hH d1 d2⟩
  | FIT_SMALL_SIZE =>
    simp only [UpdateBBoxByResizePolicy]
    split_ifs with hc
    · have hn : 0 < (width : ℚ) / orig_aspect old_width old_height := div_pos hW hoa
      simp only [NormalizedBBox.in_unit]
      exact ⟨clamp_min_unit _ _ _ hOW hW a1 a2, clamp_min_unit _ _ _ hOH hn b1 b2,
        clamp_max_unit _ _ _ hOW hW c1 c2, clamp_max_unit _ _ _ hOH hn d1 d2⟩
    · have hn : 0 < orig_aspect old_width old_height * (height : ℚ) := mul_pos hoa hH
      simp only [NormalizedBBox.in_unit]
      exact ⟨clamp_min_unit _ _ _ hOW hn a1 a2, clamp_min_unit _ _ _ hOH hH b1 b2,
        clamp_max_unit _ _ _ hOW hn c1 c2, clamp_max_unit _ _ _ hOH hH d1 d2⟩

/-- Witness for C2: a 100x50 image fitted into 50x50 with padding, box
(0.2, 0.2, 0.8, 0.8). -/
theorem bbox_stays_in_unit_witness :
    (UpdateBBoxByResizePolicy ⟨Resize_mode.FIT_LARGE_SIZE_AND_PAD, 50, 50⟩ 100 50
      ⟨1/5, 1/5, 4/5, 4/5⟩).in_unit :=
  bbox_stays_in_unit Resize_mode.FIT_LARGE_SIZE_AND_PAD 50 50 100 50 ⟨1/5, 1/5, 4/5, 4/5⟩
    (by decide) (by decide) (by decide) (by decide)
    (by simp only [NormalizedBBox.in_unit]; norm_num)

/-- The floor of half an integer is within one half below that half. -/
theorem floor_half_bounds (m : Int) :
    ((m : ℚ) - 1) / 2 ≤ ((⌊(m : ℚ) / 2⌋ : Int) : ℚ) ∧
      ((⌊(m : ℚ) / 2⌋ : Int) : ℚ) ≤ (m : ℚ) / 2 := by
  refine ⟨?_, Int.floor_le _⟩
  have h1 : (2 : Int) * (m / 2) ≤ m := Int.mul_ediv_self_le (by norm_num)
  have h2 : m - 1 ≤ 2 * (m / 2) := by omega
  have h3 : ((2 * (m / 2) : Int) : ℚ) ≤ (m : ℚ) := by exact_mod_cast h1
  have h4 : ((m - 1 : Int) : ℚ) ≤ ((2 * (m / 2) : Int) : ℚ) := by exact_mod_cast h2
  push_cast at h3 h4
  have h5 : m / 2 ≤ ⌊(m : ℚ) / 2⌋ := Int.le_floor.2 (by linarith)
  have h6 : ((m / 2 : Int) : ℚ) ≤ ((⌊(m : ℚ) / 2⌋ : Int) : ℚ) := by exact_mod_cast h5
  linarith

/-- Comparison of the two padding computations on one axis in binary32
arithmetic, from the common rounded extent `x` with floor `h`: the bbox path
takes the offset `(T - x) / 2` and the inner extent `T - 2 * offset`, the
pixel path the extent `h` and the leading border `⌊(T - h) / 2⌋`. -/
theorem pad_compare_f32 (T h : Int) (x : ℚ) (hfl : ⌊x⌋ = h) (h0 : 0 ≤ h) (hT : h ≤ T)
    (hT24 : T < 2 ^ 24) :
    (0 ≤ f32 ((T : ℚ) - f32 (2 * f32 (f32 ((T : ℚ) - x) / 2))) - (h : ℚ)
      ∧ f32 ((T : ℚ) - f32 (2 * f32 (f32 ((T : ℚ) - x) / 2))) - (h : ℚ) ≤ 1)
    ∧ |f32 (f32 ((T : ℚ) - x) / 2) - ((⌊((T - h : Int) : ℚ) / 2⌋ : Int) : ℚ)| ≤ 1 / 2 := by
  have hx1 : (h : ℚ) ≤ x := by rw [← hfl]; exact Int.floor_le x
  have hx2 : x < (h : ℚ) + 1 := by rw [← hfl]; exact Int.lt_floor_add_one x
  have h24 : (2 : Int) ^ 24 = 16777216 := by norm_num
  rw [h24] at hT24
  have rep : ∀ n : Int, -1 ≤ n → n ≤ T + 1 → f32 (n : ℚ) = (n : ℚ) := by
    intro n hn1 hn2
    apply f32_int
    rw [abs_le, h24]
    constructor <;> omega
  have reph : ∀ n : Int, -1 ≤ n → n ≤ T → f32 ((n : ℚ) / 2) = (n : ℚ) / 2 := by
    intro n hn1 hn2
    apply f32_half_int
    rw [abs_le, h24]
    constructor <;> omega
  -- the rounded difference `T - x`
  obtain ⟨d1, d2⟩ := f32_between (rep (T - h - 1) (by omega) (by omega))
    (rep (T - h) (by omega) (by omega)) (y := (T : ℚ) - x)
    (by push_cast; linarith) (by push_cast; linarith)
  -- its half
  obtain ⟨p1, p2⟩ := f32_between (reph (T - h - 1) (by omega) (by omega))
    (reph (T - h) (by omega) (by omega)) (y := f32 ((T : ℚ) - x) / 2)
    (by linarith) (by linarith)
  -- twice the offset
  obtain ⟨g1, g2⟩ := f32_between (rep (T - h - 1) (by omega) (by omega))
    (rep (T - h) (by omega) (by omega)) (y := 2 * f32 (f32 ((T : ℚ) - x) / 2))
    (by linarith) (by linarith)
  -- the inner extent
  obtain ⟨i1, i2⟩ := f32_between (rep h (by omega) (by omega)) (rep (h + 1) (by omega) (by omega))
    (y := (T : ℚ) - f32 (2 * f32 (f32 ((T : ℚ) - x) / 2)))
    (by push_cast at g1 g2 ⊢; linarith) (by push_cast at g1 g2 ⊢; linarith)
  obtain ⟨f1, f2⟩ := floor_half_bounds (T - h)
  push_cast at d1 d2 p1 p2 g1 g2 i1 i2 f1 f2
  refine ⟨⟨by linarith, by linarith⟩, ?_⟩
  rw [abs_le]
  push_cast
  constructor <;> linarith

/-- The two paths on a 100x50 image fitted into 50x50: the padded axis is the
vertical one, the bbox offset is 12.5, and the pixel path resizes to 50x25
with 12 rows above and 13 below. -/
theorem fit_100x50_into_50x50 :
    f32 (f32 (100 : ℚ) / f32 (50 : ℚ)) > f32 (f32 (50 : ℚ) / f32 (50 : ℚ))
    ∧ padding_y_f32 50 50 100 50 = 25 / 2
    ∧ AspectKeepingResizeAndPad 100 50 50 50 = Except.ok ⟨50, 25, 12, 13, 0, 0⟩ := by
  have h100 : f32 (100 : ℚ) = 100 := by simpa using f32_int 100 (by norm_num)
  have h50 : f32 (50 : ℚ) = 50 := by simpa using f32_int 50 (by norm_num)
  have h25 : f32 (25 : ℚ) = 25 := by simpa using f32_int 25 (by norm_num)
  have h2 : f32 (2 : ℚ) = 2 := by simpa using f32_int 2 (by norm_num)
  have h25h : f32 ((25 : ℚ) / 2) = 25 / 2 := by simpa using f32_half_int 25 (by norm_num)
  have eoa : f32 (f32 (100 : ℚ) / f32 (50 : ℚ)) = 2 := by
    rw [h100, h50]
    norm_num [h2]
  have ena : f32 (f32 (50 : ℚ) / f32 (50 : ℚ)) = 1 := by
    rw [h50]
    norm_num
  have ex : f32 (f32 (50 : ℚ) / 2) = 25 := by
    rw [h50]
    norm_num [h25]
  have efl : ⌊(25 : ℚ)⌋ = 25 := Int.floor_eq_iff.2 (by norm_num)
  have efl2 : ⌊(25 : ℚ) / 2⌋ = 12 := Int.floor_eq_iff.2 (by norm_num)
  refine ⟨?_, ?_, ?_⟩
  · rw [eoa, ena]
    norm_num
  · simp only [padding_y_f32, Nat.cast_ofNat, Int.cast_ofNat, h100, h50]
    norm_num [h2, h25, h25h]
  · simp only [AspectKeepingResizeAndPad, Int.cast_ofNat, h100, h50]
    norm_num [h2, h25, efl, efl2]

/-- C3 (counterexample): for a 100x50 image fitted into 50x50 the bbox path
adds the offset 12.5 on the padded (vertical) axis while the pixel path
resizes to 25 rows and adds a top border of 12 rows (and 13 below). -/
theorem pad_offset_differs_from_border :
    f32 (f32 (100 : ℚ) / f32 (50 : ℚ)) > f32 (f32 (50 : ℚ) / f32 (50 : ℚ))
    ∧ padding_y_f32 50 50 100 50 = 25 / 2
    ∧ AspectKeepingResizeAndPad 100 50 50 50 = Except.ok ⟨50, 25, 12, 13, 0, 0⟩
    ∧ padding_y_f32 50 50 100 50 ≠ ((12 : Int) : ℚ) := by
  obtain ⟨h1, h2, h3⟩ := fit_100x50_into_50x50
  refine ⟨h1, h2, h3, ?_⟩
  rw [h2]
  norm_num

/-- C3 (amended): in FIT_LARGE_SIZE_AND_PAD mode with positive old dimensions
and target dimensions below `2 ^ 24`, whenever the pixel path returns, it
floors what the bbox path keeps unfloored: on the padded axis the inner extent of the bbox path is between
the resized extent and one pixel more, the bbox offset is within half a
pixel of the leading border (top or left), and the other axis gets no
border. -/
theorem pad_offset_close_to_border (height width : Nat) (old_width old_height : Int)
    (L : PadLayout) (_how : 0 < old_width) (_hoh : 0 < old_height)
    (hh : height < 2 ^ 24) (hw : width < 2 ^ 24)
    (hL : AspectKeepingResizeAndPad old_width old_height width height = Except.ok L) :
    if f32 (f32 (old_width : ℚ) / f32 (old_height : ℚ))
        > f32 (f32 (width : ℚ) / f32 (height : ℚ)) then
      (0 ≤ inner_y_f32 width height old_width old_height - (L.height : ℚ)
        ∧ inner_y_f32 width height old_width old_height - (L.height : ℚ) ≤ 1)
      ∧ |padding_y_f32 width height old_width old_height - (L.top : ℚ)| ≤ 1 / 2
      ∧ L.left = 0
    else
      (0 ≤ inner_x_f32 width height old_width old_height - (L.width : ℚ)
        ∧ inner_x_f32 width height old_width old_height - (L.width : ℚ) ≤ 1)
      ∧ |padding_x_f32 width height old_width old_height - (L.left : ℚ)| ≤ 1 / 2
      ∧ L.top = 0 := by
  have h24 : (2 : Nat) ^ 24 = 16777216 := by norm_num
  rw [h24] at hh hw
  have hH : f32 (height : ℚ) = (height : ℚ) := by
    have := f32_int (height : Int) (by rw [abs_le]; constructor <;> norm_num <;> omega)
    simpa using this
  have hW : f32 (width : ℚ) = (width : ℚ) := by
    have := f32_int (width : Int) (by rw [abs_le]; constructor <;> norm_num <;> omega)
    simpa using this
  unfold AspectKeepingResizeAndPad at hL
  simp only [Int.cast_natCast] at hL
  split_ifs with hc
  · rw [if_pos hc] at hL
    split_ifs at hL with c1 c2
    injection hL with hL
    subst hL
    simp only [not_or, not_le, not_lt] at c1 c2
    have key := pad_compare_f32 (height : Int)
      ⌊f32 (f32 (width : ℚ) / f32 (f32 (old_width : ℚ) / f32 (old_height : ℚ)))⌋
      (f32 (f32 (width : ℚ) / f32 (f32 (old_width : ℚ) / f32 (old_height : ℚ)))) rfl
      (by omega)
      (by
        have hp := c2.1
        have := Int.floor_nonneg.1 hp
        have h2 : (0 : ℚ) ≤ (((height : Int) -
            ⌊f32 (f32 (width : ℚ) / f32 (f32 (old_width : ℚ) / f32 (old_height : ℚ)))⌋ : Int) : ℚ) := by
          linarith
        have h3 : (0 : Int) ≤ (height : Int) -
            ⌊f32 (f32 (width : ℚ) / f32 (f32 (old_width : ℚ) / f32 (old_height : ℚ)))⌋ := by
          exact_mod_cast h2
        omega)
      (by norm_num; omega)
    simp only [inner_y_f32, padding_y_f32, hH, hW]
    simp only [hW, Int.cast_natCast] at key
    exact ⟨key.1, key.2, trivial⟩
  · rw [if_neg hc] at hL
    split_ifs at hL with c1 c2
    injection hL with hL
    subst hL
    simp only [not_or, not_le, not_lt] at c1 c2
    have key := pad_compare_f32 (width : Int)
      ⌊f32 (f32 (f32 (old_width : ℚ) / f32 (old_height : ℚ)) * f32 (height : ℚ))⌋
      (f32 (f32 (f32 (old_width : ℚ) / f32 (old_height : ℚ)) * f32 (height : ℚ))) rfl
      (by omega)
      (by
        have hp := c2.1
        have := Int.floor_nonneg.1 hp
        have h2 : (0 : ℚ) ≤ (((width : Int) -
            ⌊f32 (f32 (f32 (old_width : ℚ) / f32 (old_height : ℚ)) * f32 (height : ℚ))⌋ : Int) : ℚ) := by
          linarith
        have h3 : (0 : Int) ≤ (width : Int) -
            ⌊f32 (f32 (f32 (old_width : ℚ) / f32 (old_height : ℚ)) * f32 (height : ℚ))⌋ := by
          exact_mod_cast h2
        omega)
      (by norm_num; omega)
    simp only [inner_x_f32, padding_x_f32, hH, hW]
    simp only [hH, Int.cast_natCast] at key
    exact ⟨key.1, key.2, trivial⟩

/-- Witness for C3 (amended): a 100x50 image fitted into 50x50. -/
theorem pad_offset_close_to_border_witness :
    (0 ≤ inner_y_f32 50 50 100 50 - ((25 : Int) : ℚ)
      ∧ inner_y_f32 50 50 100 50 - ((25 : Int) : ℚ) ≤ 1)
    ∧ |padding_y_f32 50 50 100 50 - ((12 : Int) : ℚ)| ≤ 1 / 2 := by
  have h := pad_offset_close_to_border 50 50 100 50 ⟨50, 25, 12, 13, 0, 0⟩ (by norm_num)
    (by norm_num) (by norm_num) (by norm_num) fit_100x50_into_50x50.2.2
  simp only [Int.cast_ofNat, Nat.cast_ofNat] at h
  rw [if_pos fit_100x50_into_50x50.1] at h
  exact ⟨h.1, h.2.1⟩

/-- C4 (failing input): for a 100x50 image fitted into 50x50 and the box
(0, 0, 1, 3), the padded-axis maximum is clamped to the target height 50
before the offset 12.5 is added, and the `ymax` written back is 1.25. -/
theorem pad_axis_max_exceeds_one :
    (UpdateBBoxByResizePolicy ⟨Resize_mode.FIT_LARGE_SIZE_AND_PAD, 50, 50⟩ 100 50
      ⟨0, 0, 1, 3⟩).ymax = 5 / 4
    ∧ ¬ (UpdateBBoxByResizePolicy ⟨Resize_mode.FIT_LARGE_SIZE_AND_PAD, 50, 50⟩ 100 50
      ⟨0, 0, 1, 3⟩).ymax ≤ 1 := by
  have h : (UpdateBBoxByResizePolicy ⟨Resize_mode.FIT_LARGE_SIZE_AND_PAD, 50, 50⟩ 100 50
      ⟨0, 0, 1, 3⟩).ymax = 5 / 4 := by
    simp only [UpdateBBoxByResizePolicy, bbox_padding_y, orig_aspect]
    norm_num
  refine ⟨h, ?_⟩
  rw [h]
  norm_num

/-- For a positive value the conversion to `int` is the floor. -/
theorem static_cast_int_of_nonneg (q : ℚ) (hq : 0 ≤ q) : static_cast_int q = ⌊q⌋ := by
  simp [static_cast_int, hq]

/-- The rounded quotient 500 / 334. -/
theorem f32_500_div_334 : f32 ((500 : ℚ) / 334) = 3139449 / 2097152 := by
  have hk : rne ((500 / 334 : ℚ) / 2 ^ (-23 : Int)) = 12557796 := by
    rw [rne_eval _ 12557796 (by norm_num) (by norm_num)]
    norm_num
  rw [f32_eval (500 / 334) (-23) 12557796 (by norm_num) (by norm_num) (by norm_num)
    (by norm_num) hk]
  norm_num

/-- The rounded product of the rounded quotient 500 / 334 and 334: just
below 500. -/
theorem f32_aspect_times_334 :
    f32 ((3139449 : ℚ) / 2097152 * 334) = 16383999 / 32768 := by
  have hk : rne (((3139449 : ℚ) / 2097152 * 334) / 2 ^ (-15 : Int)) = 16383999 := by
    rw [rne_eval _ 16383999 (by norm_num) (by norm_num)]
    norm_num
  rw [f32_eval ((3139449 : ℚ) / 2097152 * 334) (-15) 16383999 (by norm_num) (by norm_num)
    (by norm_num) (by norm_num) hk]
  norm_num

/-- The rounded quotient 7 / 3. -/
theorem f32_7_div_3 : f32 ((7 : ℚ) / 3) = 9786709 / 4194304 := by
  have hk : rne ((7 / 3 : ℚ) / 2 ^ (-22 : Int)) = 9786709 := by
    rw [rne_eval _ 9786709 (by norm_num) (by norm_num)]
    norm_num
  rw [f32_eval (7 / 3) (-22) 9786709 (by norm_num) (by norm_num) (by norm_num)
    (by norm_num) hk]
  norm_num

/-- The rounded product of the rounded quotient 7 / 3 and 27: just below
63. -/
theorem f32_aspect_times_27 :
    f32 ((9786709 : ℚ) / 4194304 * 27) = 16515071 / 262144 := by
  have hk : rne (((9786709 : ℚ) / 4194304 * 27) / 2 ^ (-18 : Int)) = 16515071 := by
    rw [rne_eval _ 16515071 (by norm_num) (by norm_num)]
    norm_num
  rw [f32_eval ((9786709 : ℚ) / 4194304 * 27) (-18) 16515071 (by norm_num) (by norm_num)
    (by norm_num) (by norm_num) hk]
  norm_num

/-- C6 (failing input): for a 500x334 image and the target 500x334 the two
aspect ratios are the same `float`, the product `orig_aspect * height`
rounds to 499.99997 and `static_cast<int>` makes the new width 499, below
the target 500; likewise a 7x3 image and the target 63x27 give 62x27. -/
theorem fit_small_size_below_target :
    InferNewSize ⟨Resize_mode.FIT_SMALL_SIZE, 334, 500⟩ 500 334 = (499, 334)
    ∧ InferNewSize ⟨Resize_mode.FIT_SMALL_SIZE, 27, 63⟩ 7 3 = (62, 27) := by
  have u334 : int_of_uint32 334 = 334 := by decide
  have u500 : int_of_uint32 500 = 500 := by decide
  have u27 : int_of_uint32 27 = 27 := by decide
  have u63 : int_of_uint32 63 = 63 := by decide
  have h500 : f32 (500 : ℚ) = 500 := by simpa using f32_int 500 (by norm_num)
  have h334 : f32 (334 : ℚ) = 334 := by simpa using f32_int 334 (by norm_num)
  have h7 : f32 (7 : ℚ) = 7 := by simpa using f32_int 7 (by norm_num)
  have h3 : f32 (3 : ℚ) = 3 := by simpa using f32_int 3 (by norm_num)
  have h27 : f32 (27 : ℚ) = 27 := by simpa using f32_int 27 (by norm_num)
  have h63 : f32 (63 : ℚ) = 63 := by simpa using f32_int 63 (by norm_num)
  have h6327 : f32 ((63 : ℚ) / 27) = 9786709 / 4194304 := by
    have e : (63 : ℚ) / 27 = 7 / 3 := by norm_num
    rw [e, f32_7_div_3]
  have t499 : static_cast_int ((16383999 : ℚ) / 32768) = 499 := by
    unfold static_cast_int
    rw [if_pos (by norm_num)]
    exact Int.floor_eq_iff.2 (by norm_num)
  have t62 : static_cast_int ((16515071 : ℚ) / 262144) = 62 := by
    unfold static_cast_int
    rw [if_pos (by norm_num)]
    exact Int.floor_eq_iff.2 (by norm_num)
  constructor
  · simp only [InferNewSize, u334, u500, Int.cast_ofNat, h500, h334, f32_500_div_334,
      lt_self_iff_false, if_false, f32_aspect_times_334, t499]
  · simp only [InferNewSize, u27, u63, Int.cast_ofNat, h7, h3, h27, h63, f32_7_div_3, h6327,
      lt_self_iff_false, if_false, f32_aspect_times_27, t62]

/-! ## Theorems: weighted die -/

/-- The running sums continuing from `acc` are as many as the elements. -/
theorem partial_sum_from_length (xs : List ℚ) : ∀ acc : ℚ,
    (partial_sum_from acc xs).length = xs.length := by
  induction xs with
  | nil => intro acc; rfl
  | cons x xs ih => intro acc; simp [partial_sum_from, ih]

/-- There are as many running sums as elements. -/
theorem partial_sum_length (p : List ℚ) : (partial_sum p).length = p.length := by
  cases p with
  | nil => rfl
  | cons x xs => simp [partial_sum, partial_sum_from_length]

/-- The running sums continuing from a binary32 value `acc` over weights
that are not negative are at least `acc` and do not decrease: an addition
rounded to binary32 does not fall below its binary32 operand. -/
theorem partial_sum_from_mono (xs : List ℚ) : ∀ acc : ℚ, f32 acc = acc →
    (∀ x ∈ xs, 0 ≤ x) →
    (∀ i, i < xs.length → acc ≤ (partial_sum_from acc xs).getD i 0)
    ∧ (∀ i j, i ≤ j → j < xs.length →
        (partial_sum_from acc xs).getD i 0 ≤ (partial_sum_from acc xs).getD j 0) := by
  induction xs with
  | nil =>
    intro acc _ _
    constructor
    · intro i hi
      simp at hi
    · intro i j _ hj
      simp at hj
  | cons x xs ih =>
    intro acc hacc hnn
    have hx : 0 ≤ x := hnn x (List.mem_cons_self x xs)
    have hxs : ∀ y ∈ xs, 0 ≤ y := fun y hy => hnn y (List.mem_cons_of_mem x hy)
    have hstep : acc ≤ f32 (acc + x) := by
      have := f32_mono (show acc ≤ acc + x by linarith)
      rwa [hacc] at this
    obtain ⟨ih1, ih2⟩ := ih (f32 (acc + x)) (f32_idem _) hxs
    constructor
    · intro i hi
      cases i with
      | zero => simpa [partial_sum_from] using hstep
      | succ i =>
        have hi2 : i < xs.length := by simpa using hi
        simp only [partial_sum_from, List.getD_cons_succ]
        exact le_trans hstep (ih1 i hi2)
    · intro i j hij hj
      cases j with
      | zero =>
        have : i = 0 := by omega
        subst this
        exact le_refl _
      | succ j =>
        have hj2 : j < xs.length := by simpa using hj
        cases i with
        | zero =>
          simp only [partial_sum_from, List.getD_cons_succ, List.getD_cons_zero]
          exact ih1 j hj2
        | succ i =>
          simp only [partial_sum_from, List.getD_cons_succ]
          exact ih2 i j (by omega) hj2

/-- The running sums of binary32 weights that are not negative do not
decrease. -/
theorem partial_sum_mono (p : List ℚ) (hfloat : ∀ x ∈ p, f32 x = x)
    (hnn : ∀ x ∈ p, 0 ≤ x) :
    ∀ i j, i ≤ j → j < p.length →
      (partial_sum p).getD i 0 ≤ (partial_sum p).getD j 0 := by
  cases p with
  | nil =>
    intro i j _ hj
    simp at hj
  | cons x xs =>
    have hx : f32 x = x := hfloat x (List.mem_cons_self x xs)
    have hxs : ∀ y ∈ xs, 0 ≤ y := fun y hy => hnn y (List.mem_cons_of_mem x hy)
    obtain ⟨m1, m2⟩ := partial_sum_from_mono xs x hx hxs
    intro i j hij hj
    cases j with
    | zero =>
      have : i = 0 := by omega
      subst this
      exact le_refl _
    | succ j =>
      have hj2 : j < xs.length := by simpa using hj
      cases i with
      | zero =>
        simp only [partial_sum, List.getD_cons_succ, List.getD_cons_zero]
        exact m1 j hj2
      | succ i =>
        simp only [partial_sum, List.getD_cons_succ]
        exact m2 i j (by omega) hj2

/-- The loop of `std::lower_bound` on a non-decreasing list: it returns the
partition point of the range it is given. -/
theorem lower_bound_loop_spec (c : List ℚ) (val : ℚ)
    (hmono : ∀ i j : Nat, i ≤ j → j < c.length → c.getD i 0 ≤ c.getD j 0) :
    ∀ (fuel first len : Nat), len ≤ fuel → first + len ≤ c.length →
      (∀ j, j < first → c.getD j 0 < val) →
      (∀ j, first + len ≤ j → j < c.length → val ≤ c.getD j 0) →
      lower_bound_loop c val fuel first len ≤ c.length
      ∧ (∀ j, j < lower_bound_loop c val fuel first len → c.getD j 0 < val)
      ∧ (∀ j, lower_bound_loop c val fuel first len ≤ j → j < c.length →
          val ≤ c.getD j 0) := by
  intro fuel
  induction fuel with
  | zero =>
    intro first len hlen hrange hlo hhi
    have h0 : len = 0 := by omega
    subst h0
    simp only [lower_bound_loop]
    exact ⟨by omega, hlo, fun j hj hjl => hhi j (by omega) hjl⟩
  | succ fuel ih =>
    intro first len hlen hrange hlo hhi
    simp only [lower_bound_loop]
    split_ifs with hpos hlt
    · apply ih
      · omega
      · omega
      · intro j hj
        have h1 : c.getD j 0 ≤ c.getD (first + len / 2) 0 :=
          hmono j (first + len / 2) (by omega) (by omega)
        linarith
      · intro j hj hjl
        exact hhi j (by omega) hjl
    · apply ih
      · omega
      · omega
      · exact hlo
      · intro j hj hjl
        have h1 : c.getD (first + len / 2) 0 ≤ c.getD j 0 := hmono _ j hj hjl
        linarith [not_lt.1 hlt]
    · have h0 : len = 0 := by omega
      subst h0
      exact ⟨by omega, hlo, fun j hj hjl => hhi j (by omega) hjl⟩

/-- The call `std::lower_bound` on a non-decreasing list returns the first
index whose element is not below `val` (the length when there is none). -/
theorem lower_bound_spec (c : List ℚ) (val : ℚ)
    (hmono : ∀ i j : Nat, i ≤ j → j < c.length → c.getD i 0 ≤ c.getD j 0) :
    lower_bound c val ≤ c.length
    ∧ (∀ j, j < lower_bound c val → c.getD j 0 < val)
    ∧ (∀ j, lower_bound c val ≤ j → j < c.length → val ≤ c.getD j 0) := by
  unfold lower_bound
  apply lower_bound_loop_spec c val hmono c.length 0 c.length (le_refl _) (by omega)
  · intro j hj; omega
  · intro j hj hjl; omega

/-- The rounded sum `1 + 3 / 2 ^ 25`: the next binary32 value above 1. -/
theorem f32_one_plus_small : f32 (1 + (3 : ℚ) / 33554432) = 8388609 / 8388608 := by
  have hk : rne ((1 + (3 : ℚ) / 33554432) / 2 ^ (-23 : Int)) = 8388609 := by
    rw [rne_eval _ 8388608 (by norm_num) (by norm_num)]
    norm_num
  rw [f32_eval (1 + (3 : ℚ) / 33554432) (-23) 8388609 (by norm_num) (by norm_num)
    (by norm_num) (by norm_num) hk]
  norm_num

/-- The rounded sum of the next binary32 value above 1 and 1: a tie, rounded
to 2. -/
theorem f32_next_plus_one : f32 ((8388609 : ℚ) / 8388608 + 1) = 2 := by
  have hk : rne (((8388609 : ℚ) / 8388608 + 1) / 2 ^ (-22 : Int)) = 8388608 := by
    rw [rne_eval _ 8388608 (by norm_num) (by norm_num)]
    norm_num
  rw [f32_eval ((8388609 : ℚ) / 8388608 + 1) (-22) 8388608 (by norm_num) (by norm_num)
    (by norm_num) (by norm_num) hk]
  norm_num

/-- C5 (counterexample): for the weights `(1, 3 / 2 ^ 25, 1)` and the draw
`1 + 2 ^ -23`, which lies in `[0, total]`, the running sums accumulated in
`float` are `(1, 1 + 2 ^ -23, 2)` and `roll_weighted_die` returns index 1,
although the cumulative sum `p[0] + p[1] = 1 + 3 / 2 ^ 25` is below the
draw; the weights and the draw are binary32 values. -/
theorem roll_weighted_die_rounded_sum :
    partial_sum [1, 3 / 33554432, 1] = [1, 8388609 / 8388608, 2]
    ∧ roll_weighted_die [1, 3 / 33554432, 1] (8388609 / 8388608) = some 1
    ∧ ¬ ((8388609 : ℚ) / 8388608 ≤ (([1, 3 / 33554432, 1] : List ℚ).take (1 + 1)).sum)
    ∧ (0 : ℚ) ≤ 8388609 / 8388608
    ∧ (8388609 : ℚ) / 8388608 ≤ ([1, 3 / 33554432, 1] : List ℚ).sum
    ∧ (0 : ℚ) < ([1, 3 / 33554432, 1] : List ℚ).sum
    ∧ f32 ((3 : ℚ) / 33554432) = 3 / 33554432
    ∧ f32 ((8388609 : ℚ) / 8388608) = 8388609 / 8388608 := by
  have hps : partial_sum [1, 3 / 33554432, 1] = [1, 8388609 / 8388608, 2] := by
    simp only [partial_sum, partial_sum_from, f32_one_plus_small, f32_next_plus_one]
  refine ⟨hps, ?_, ?_, ?_, ?_, ?_, ?_, ?_⟩
  · simp only [roll_weighted_die, hps]
    norm_num [lower_bound, lower_bound_loop]
  · norm_num
  · norm_num
  · norm_num
  · norm_num
  · have h := f32_repr 3 (-25) (by norm_num) (by norm_num)
    have e : ((3 : Int) : ℚ) * 2 ^ (-25 : Int) = 3 / 33554432 := by norm_num
    rwa [e] at h
  · have h := f32_repr 8388609 (-23) (by norm_num) (by norm_num)
    have e : ((8388609 : Int) : ℚ) * 2 ^ (-23 : Int) = 8388609 / 8388608 := by norm_num
    rwa [e] at h

/-- C5 (amended): for a non-empty vector of binary32 weights that are not
negative, whose running sums stay finite (below `2 ^ 128`), and a draw that
is at most the last running sum `cumulative.back()`, `roll_weighted_die`
returns an index `i` below the
length whose running sum, accumulated left to right in binary32 as
`std::partial_sum` does, is at least the draw, and no smaller index has that
property. -/
theorem roll_weighted_die_smallest_index (p : List ℚ) (val : ℚ)
    (hne : p ≠ []) (hfloat : ∀ x ∈ p, f32 x = x) (hnonneg : ∀ x ∈ p, 0 ≤ x)
    (_hfinite : ∀ c ∈ partial_sum p, c < 2 ^ 128)
    (hval : val ≤ (partial_sum p).getD (p.length - 1) 0) :
    ∃ i : Nat, roll_weighted_die p val = some i ∧ i < p.length
      ∧ val ≤ (partial_sum p).getD i 0
      ∧ ∀ j, j < i → (partial_sum p).getD j 0 < val := by
  have hlen : (partial_sum p).length = p.length := partial_sum_length p
  have hposlen : 0 < p.length := List.length_pos.2 hne
  have hmono : ∀ i j : Nat, i ≤ j → j < (partial_sum p).length →
      (partial_sum p).getD i 0 ≤ (partial_sum p).getD j 0 := by
    intro i j hij hj
    rw [hlen] at hj
    exact partial_sum_mono p hfloat hnonneg i j hij hj
  obtain ⟨h1, h2, h3⟩ := lower_bound_spec (partial_sum p) val hmono
  have hroll : roll_weighted_die p val = some (lower_bound (partial_sum p) val) := by
    unfold roll_weighted_die
    cases hc : (partial_sum p).getLast? with
    | none =>
      rw [List.getLast?_eq_none_iff] at hc
      rw [hc] at hlen
      simp at hlen
      omega
    | some v => simp only [hc]
  have hlt : lower_bound (partial_sum p) val < p.length := by
    by_contra hcon
    have h4 := h2 (p.length - 1) (by omega)
    linarith
  refine ⟨lower_bound (partial_sum p) val, hroll, hlt, ?_, h2⟩
  exact h3 (lower_bound (partial_sum p) val) (le_refl _) (by omega)

/-- Witness for C5 (amended): the weights (1, 1) and the draw 1 give
index 0. -/
theorem roll_weighted_die_smallest_index_witness :
    ∃ i : Nat, roll_weighted_die [1, 1] 1 = some i ∧ i < ([1, 1] : List ℚ).length
      ∧ (1 : ℚ) ≤ (partial_sum [1, 1]).getD i 0
      ∧ ∀ j, j < i → (partial_sum [1, 1]).getD j 0 < 1 :=
  roll_weighted_die_smallest_index [1, 1] 1 (by simp)
    (by intro x hx; simp at hx; rw [hx]; exact f32_one)
    (by intro x hx; simp at hx; rw [hx]; norm_num)
    (by
      have h2 : f32 (2 : ℚ) = 2 := by simpa using f32_int 2 (by norm_num)
      have e : (1 : ℚ) + 1 = 2 := by norm_num
      intro c hc
      simp only [partial_sum, partial_sum_from, e, h2, List.mem_cons, List.mem_singleton,
        List.not_mem_nil, or_false] at hc
      rcases hc with hc | hc <;> rw [hc] <;> norm_num)
    (by
      have h2 : f32 (2 : ℚ) = 2 := by simpa using f32_int 2 (by norm_num)
      have e : (1 : ℚ) + 1 = 2 := by norm_num
      simp only [partial_sum, partial_sum_from, List.length_cons, List.length_nil, e, h2]
      norm_num)

/-- C9 (counterexample): `roll_weighted_die` refuses nothing: on the
all-zero vector `[0, 0]`, whose total is not positive, with the only
possible draw 0 it returns index 0; and for `prob = -1/2` the gate of
`ApplyGeometry` hands it the empty vector. -/
theorem roll_weighted_die_accepts_zero_total :
    roll_weighted_die [0, 0] 0 = some 0
    ∧ ApplyGeometry_gate_probs (-1 / 2) = some [] := by
  constructor
  · simp [roll_weighted_die, partial_sum, partial_sum_from, lower_bound, lower_bound_loop]
  · simp only [ApplyGeometry_gate_probs, binary_probs]
    norm_num

/-- C9 (amended): for every `prob > 0` each gating caller hands
`roll_weighted_die` the vector `[1 - prob, prob]`, which is non-empty with
total exactly 1, and the die then returns an index below 2 for every draw up
to the total; for `prob = 0` `ApplyGeometry` and `ApplyNoise` return before
any roll, and `ApplyDistort` does so for every `prob ≤ 0`. -/
theorem gate_probs_valid (prob : ℚ) (some_effect : Bool) :
    (0 < prob →
      ApplyGeometry_gate_probs prob = some [1 - prob, prob]
      ∧ ApplyNoise_gate_probs prob true = some [1 - prob, prob]
      ∧ ApplyDistort_gate_probs prob = some [1 - prob, prob]
      ∧ ([1 - prob, prob] : List ℚ) ≠ []
      ∧ ([1 - prob, prob] : List ℚ).sum = 1
      ∧ ∀ val : ℚ, val ≤ 1 →
          ∃ i : Nat, roll_weighted_die [1 - prob, prob] val = some i ∧ i < 2)
    ∧ (prob = 0 →
      ApplyGeometry_gate_probs prob = none ∧ ApplyNoise_gate_probs prob some_effect = none)
    ∧ (prob ≤ 0 → ApplyDistort_gate_probs prob = none) := by
  refine ⟨?_, ?_, ?_⟩
  · intro hp
    have hne : prob ≠ 0 := ne_of_gt hp
    refine ⟨?_, ?_, ?_, ?_, ?_, ?_⟩
    · simp [ApplyGeometry_gate_probs, binary_probs, hp, hne]
    · simp [ApplyNoise_gate_probs, binary_probs, hp, hne]
    · simp [ApplyDistort_gate_probs, hp]
    · simp
    · simp
    · intro val hval
      have h2 : ¬ (1 : ℚ) < val := not_lt.2 hval
      by_cases h1 : 1 - prob < val
      · refine ⟨1, ?_, by norm_num⟩
        simp [roll_weighted_die, partial_sum, partial_sum_from, lower_bound,
          lower_bound_loop, h1, h2]
      · refine ⟨0, ?_, by norm_num⟩
        simp [roll_weighted_die, partial_sum, partial_sum_from, lower_bound,
          lower_bound_loop, h1, h2]
  · intro h0
    subst h0
    simp [ApplyGeometry_gate_probs, ApplyNoise_gate_probs]
  · intro h0
    have : ¬ prob > 0 := not_lt.2 h0
    simp [ApplyDistort_gate_probs, this]

/-- Witness for C9 (amended): `prob = 1/2`. -/
theorem gate_probs_valid_witness :
    ApplyGeometry_gate_probs (1 / 2) = some [1 - 1 / 2, 1 / 2]
    ∧ ([1 - 1 / 2, 1 / 2] : List ℚ).sum = 1 :=
  ⟨((gate_probs_valid (1 / 2) true).1 (by norm_num)).1,
   ((gate_probs_valid (1 / 2) true).1 (by norm_num)).2.2.2.2.1⟩

/-! ## Theorems: foreground crop window -/

/-- A sub-matrix that is returned lies inside the mask. -/
theorem roi_ok_inside (src : Mat) (r : Rect) (edge : List Nat)
    (h : src.roi r = Except.ok edge) :
    0 ≤ r.x ∧ 0 ≤ r.width ∧ r.x + r.width ≤ src.cols ∧
      0 ≤ r.y ∧ 0 ≤ r.height ∧ r.y + r.height ≤ src.rows := by
  unfold Mat.roi at h
  split_ifs at h with hc
  exact hc

/-- The bottom loop does not use up a bound above the window height. -/
theorem peel_bottom_bound (src : Mat) (color : Nat) : ∀ (fuel : Nat) (win : Rect),
    win.height.toNat < fuel →
    peel_bottom src color fuel win ≠ Except.error CvError.iteration_bound := by
  intro fuel
  induction fuel with
  | zero => intro win h; omega
  | succ fuel ih =>
    intro win h
    simp only [peel_bottom]
    cases hroi : src.roi ⟨win.x, win.height - 2, win.width, 1⟩ with
    | error e =>
      unfold Mat.roi at hroi
      split_ifs at hroi
      cases hroi
      simp
    | ok edge =>
      have hin := roi_ok_inside src _ edge hroi
      simp only at hin
      cases hb : is_border edge color with
      | false => simp [hb]
      | true =>
        simp only [hb, Bool.true_and, if_true, decide_eq_true_eq]
        split_ifs with h2
        · apply ih
          simp only
          omega
        · simp

/-- The right loop does not use up a bound above the window width. -/
theorem peel_right_bound (src : Mat) (color : Nat) : ∀ (fuel : Nat) (win : Rect),
    win.width.toNat < fuel →
    peel_right src color fuel win ≠ Except.error CvError.iteration_bound := by
  intro fuel
  induction fuel with
  | zero => intro win h; omega
  | succ fuel ih =>
    intro win h
    simp only [peel_right]
    cases hroi : src.roi ⟨win.width - 2, win.y, 1, win.height⟩ with
    | error e =>
      unfold Mat.roi at hroi
      split_ifs at hroi
      cases hroi
      simp
    | ok edge =>
      have hin := roi_ok_inside src _ edge hroi
      simp only at hin
      cases hb : is_border edge color with
      | false => simp [hb]
      | true =>
        simp only [hb, Bool.true_and, if_true, decide_eq_true_eq]
        split_ifs with h2
        · apply ih
          simp only
          omega
        · simp

/-- The top loop does not use up a bound above the rows left below `y`. -/
theorem peel_top_bound (src : Mat) (color : Nat) : ∀ (fuel : Nat) (win : Rect),
    (src.rows - win.y).toNat < fuel →
    peel_top src color fuel win ≠ Except.error CvError.iteration_bound := by
  intro fuel
  induction fuel with
  | zero => intro win h; omega
  | succ fuel ih =>
    intro win h
    simp only [peel_top]
    cases hroi : src.roi ⟨win.x, win.y, win.width, 1⟩ with
    | error e =>
      unfold Mat.roi at hroi
      split_ifs at hroi
      cases hroi
      simp
    | ok edge =>
      have hin := roi_ok_inside src _ edge hroi
      simp only at hin
      cases hb : is_border edge color with
      | false => simp [hb]
      | true =>
        simp only [hb, Bool.true_and, if_true, decide_eq_true_eq]
        split_ifs with h2
        · apply ih
          simp only
          omega
        · simp

/-- The left loop does not use up a bound above the columns left right of
`x`. -/
theorem peel_left_bound (src : Mat) (color : Nat) : ∀ (fuel : Nat) (win : Rect),
    (src.cols - win.x).toNat < fuel →
    peel_left src color fuel win ≠ Except.error CvError.iteration_bound := by
  intro fuel
  induction fuel with
  | zero => intro win h; omega
  | succ fuel ih =>
    intro win h
    simp only [peel_left]
    cases hroi : src.roi ⟨win.x, win.y, 1, win.height⟩ with
    | error e =>
      unfold Mat.roi at hroi
      split_ifs at hroi
      cases hroi
      simp
    | ok edge =>
      have hin := roi_ok_inside src _ edge hroi
      simp only at hin
      cases hb : is_border edge color with
      | false => simp [hb]
      | true =>
        simp only [hb, Bool.true_and, if_true, decide_eq_true_eq]
        split_ifs with h2
        · apply ih
          simp only
          omega
        · simp


/-- The only failure of a sub-matrix access is the range assertion. -/
theorem roi_error_kind (src : Mat) (r : Rect) (e : CvError)
    (h : src.roi r = Except.error e) : e = CvError.roi_out_of_range := by
  unfold Mat.roi at h
  split_ifs at h
  cases h
  rfl

/-- The four loops in sequence never use up their iteration bounds: they
return a window or stop at a range assertion. -/
theorem peel_bound (src : Mat) (color : Nat) :
    peel src color ≠ Except.error CvError.iteration_bound := by
  unfold peel
  simp only
  have hb := peel_bottom_bound src color (src.rows.toNat + 1) ⟨0, 0, src.cols, src.rows⟩
    (by simp)
  cases h1 : peel_bottom src color (src.rows.toNat + 1) ⟨0, 0, src.cols, src.rows⟩ with
  | error e =>
    rw [h1] at hb
    simpa using hb
  | ok w1 =>
    simp only
    have hr := peel_right_bound src color (w1.width.toNat + 1) w1 (by omega)
    cases h2 : peel_right src color (w1.width.toNat + 1) w1 with
    | error e =>
      rw [h2] at hr
      simpa using hr
    | ok w2 =>
      simp only
      have ht := peel_top_bound src color ((src.rows - w2.y).toNat + 1) w2 (by omega)
      cases h3 : peel_top src color ((src.rows - w2.y).toNat + 1) w2 with
      | error e =>
        rw [h3] at ht
        simpa using ht
      | ok w3 =>
        simp only
        exact peel_left_bound src color ((src.cols - w3.x).toNat + 1) w3 (by omega)

/-- The edge test fails only by a range assertion. -/
theorem count_border_edges_error_kind (src : Mat) (e : CvError)
    (h : count_border_edges src = Except.error e) : e = CvError.roi_out_of_range := by
  unfold count_border_edges at h
  simp only at h
  cases h0 : src.roi ⟨0, 0, src.cols, 1⟩ with
  | error e0 =>
    rw [h0] at h
    cases h
    exact roi_error_kind src _ _ h0
  | ok e0 =>
    rw [h0] at h
    simp only at h
    cases h1 : src.roi ⟨src.cols - 2, 0, 1, src.rows⟩ with
    | error e1 =>
      rw [h1] at h
      cases h
      exact roi_error_kind src _ _ h1
    | ok e1 =>
      rw [h1] at h
      simp only at h
      cases h2 : src.roi ⟨0, src.rows - 2, src.cols, 1⟩ with
      | error e2 =>
        rw [h2] at h
        cases h
        exact roi_error_kind src _ _ h2
      | ok e2 =>
        rw [h2] at h
        simp only at h
        cases h3 : src.roi ⟨0, 0, 1, src.rows⟩ with
        | error e3 =>
          rw [h3] at h
          cases h
          exact roi_error_kind src _ _ h3
        | ok e3 =>
          rw [h3] at h
          cases h

/-- The embedding of `CropMask` never stops at its iteration bound: every
call returns a window or throws at a range assertion. -/
theorem CropMask_bound (src : Mat) (point : Nat) (padding : Int) :
    CropMask src point padding ≠ Except.error CvError.iteration_bound := by
  unfold CropMask
  simp only
  cases hc : count_border_edges src with
  | error e =>
    have := count_border_edges_error_kind src e hc
    subst this
    simp
  | ok n =>
    simp only
    split_ifs with hn
    · simp
    · have hp := peel_bound src (src.px 0 0)
      cases hpe : peel src (src.px 0 0) with
      | error e =>
        rw [hpe] at hp
        simpa using hp
      | ok w => simp

/-- C7 (failing input): in the 4x4 mask with the pixels (1, 1) and (3, 3)
set, the right column and the bottom row are not uniform, yet the four
tested edges (row 0, column `cols - 2`, row `rows - 2`, column 0) are, and
`CropMask` returns the window (1, 1, 2, 2) instead of the full bounds
(0, 0, 4, 4). -/
theorem crop_mask_misses_outer_edge :
    mask_corner_speck.rows = 4 ∧ mask_corner_speck.cols = 4
    ∧ mask_corner_speck.col_uniform 3 = false
    ∧ mask_corner_speck.row_uniform 3 = false
    ∧ count_border_edges mask_corner_speck = Except.ok 4
    ∧ CropMask mask_corner_speck 0 0 = Except.ok ⟨1, 1, 2, 2⟩
    ∧ CropMask mask_corner_speck 0 0 ≠ Except.ok ⟨0, 0, 4, 4⟩ := by
  have h : CropMask mask_corner_speck 0 0 = Except.ok ⟨1, 1, 2, 2⟩ := by rfl
  refine ⟨by rfl, by rfl, by rfl, by rfl, by rfl, h, ?_⟩
  rw [h]
  intro hcon
  injection hcon with h1
  injection h1 with hx
  exact absurd hx (by decide)

/-- Once the padding block has moved the left bound out, the right bound of
the window is where it was: the width gained only makes up for the shift. -/
theorem add_padding_after_left_shift (src : Mat) (win : Rect) (padding : Int)
    (hx : win.x > padding) (hroom : win.width + win.x < src.cols) :
    (add_padding src win padding).x = win.x - padding
    ∧ (add_padding src win padding).x + (add_padding src win padding).width
        = win.x + win.width := by
  have h3 : win.width + (win.x - padding) + padding < src.cols := by omega
  unfold add_padding
  simp only [hx, if_true]
  split_ifs <;> simp_all

/-- C8 (failing input): in the 7x7 mask with the single foreground pixel
(3, 3) the peeled window is (3, 3, 2, 2), with more than one pixel of room on
every side; with `padding = 1` `CropMask` returns (2, 2, 3, 3): the left and
top bounds move out by one, the right and bottom bounds `x + width = 5` and
`y + height = 5` stay where they were instead of moving to 6. -/
theorem crop_mask_padding_one_sided :
    peel mask_centre_dot 0 = Except.ok ⟨3, 3, 2, 2⟩
    ∧ CropMask mask_centre_dot 0 1 = Except.ok ⟨2, 2, 3, 3⟩
    ∧ add_padding mask_centre_dot ⟨3, 3, 2, 2⟩ 1 = ⟨2, 2, 3, 3⟩
    ∧ (add_padding mask_centre_dot ⟨3, 3, 2, 2⟩ 1).x = 3 - 1
    ∧ (add_padding mask_centre_dot ⟨3, 3, 2, 2⟩ 1).x
        + (add_padding mask_centre_dot ⟨3, 3, 2, 2⟩ 1).width = 3 + 2
    ∧ (add_padding mask_centre_dot ⟨3, 3, 2, 2⟩ 1).y
        + (add_padding mask_centre_dot ⟨3, 3, 2, 2⟩ 1).height = 3 + 2 := by
  refine ⟨by rfl, by rfl, by rfl, by rfl, by rfl, by rfl⟩

/-! ## Theorems: posterize -/

/-- Without wrap-around a table entry is a fixed point of the table. -/
theorem lookUpTable_fixed (div v : Nat) (hdiv : 1 ≤ div) (hv : v < 256)
    (hnowrap : 255 / div * div + div / 2 ≤ 255) :
    lookUpTable div (lookUpTable div v) = lookUpTable div v := by
  have hq : v / div ≤ 255 / div := Nat.div_le_div_right (by omega)
  have hq2 : v / div * div ≤ 255 / div * div := Nat.mul_le_mul_right div hq
  have hsmall : v / div * div + div / 2 < 256 := by omega
  have hhalf : div / 2 < div := Nat.div_lt_self (by omega) (by norm_num)
  have hquot : (v / div * div + div / 2) / div = v / div := by
    rw [Nat.add_comm, Nat.add_mul_div_right _ _ (by omega : 0 < div),
      Nat.div_eq_of_lt hhalf, Nat.zero_add]
  unfold lookUpTable
  rw [Nat.mod_eq_of_lt hsmall, hquot, Nat.mod_eq_of_lt hsmall]

set_option maxRecDepth 100000 in
/-- When the largest table entry wraps around, the entry of the sample 255
is not a fixed point of the table. -/
theorem lookUpTable_wrap_moves : ∀ div : Nat, div < 256 → 1 ≤ div →
    ¬ (255 / div * div + div / 2 ≤ 255) →
    lookUpTable div (lookUpTable div 255) ≠ lookUpTable div 255 := by
  decide

/-- C10 (counterexample): with `div = 255` the sample 255 is posterized to
`(255 + 127) mod 256 = 126`, and a second pass turns 126 into 127. -/
theorem colorReduce_not_idempotent_255 :
    colorReduce [255] 255 = [126]
    ∧ colorReduce (colorReduce [255] 255) 255 = [127]
    ∧ colorReduce (colorReduce [255] 255) 255 ≠ colorReduce [255] 255 := by
  decide

/-- C10 (amended): for `1 ≤ div ≤ 255`, posterizing twice equals posterizing
once on every 8-bit image exactly when no table entry wraps around in its
8-bit cell, that is when `255 / div * div + div / 2 ≤ 255`; the bucket width
64 is such a width. -/
theorem colorReduce_idempotent_iff_no_wrap (div : Nat) (hdiv : 1 ≤ div)
    (hdiv2 : div ≤ 255) :
    ((∀ image : List Nat, (∀ v ∈ image, v < 256) →
        colorReduce (colorReduce image div) div = colorReduce image div)
      ↔ 255 / div * div + div / 2 ≤ 255)
    ∧ (∀ image : List Nat, (∀ v ∈ image, v < 256) →
        colorReduce (colorReduce image 64) 64 = colorReduce image 64) := by
  have hfwd : ∀ d : Nat, 1 ≤ d → 255 / d * d + d / 2 ≤ 255 →
      ∀ image : List Nat, (∀ v ∈ image, v < 256) →
        colorReduce (colorReduce image d) d = colorReduce image d := by
    intro d hd hnw image himg
    unfold colorReduce
    rw [List.map_map]
    apply List.map_congr_left
    intro v hv
    exact lookUpTable_fixed d v hd (himg v hv) hnw
  refine ⟨⟨?_, fun hnw => hfwd div hdiv hnw⟩, hfwd 64 (by norm_num) (by norm_num)⟩
  intro hall
  by_contra hwrap
  have h1 := hall [255] (by intro v hv; simp at hv; omega)
  simp only [colorReduce, List.map_cons, List.map_nil, List.cons.injEq, and_true] at h1
  exact lookUpTable_wrap_moves div (by omega) hdiv hwrap h1

/-- Witness for C10 (amended): the bucket width 64. -/
theorem colorReduce_idempotent_iff_no_wrap_witness :
    colorReduce (colorReduce [0, 100, 200, 255] 64) 64 = colorReduce [0, 100, 200, 255] 64 :=
  (colorReduce_idempotent_iff_no_wrap 64 (by decide) (by decide)).1.2 (by decide)
    [0, 100, 200, 255] (by decide)

/-! ## Theorems: pad colour of `ApplyResize` -/

/-- For a three-channel image every pad-value list of length 1 or 3 yields a
pad colour: the three reads are in range. -/
theorem pad_val_three_channels (pad_value : List ℚ)
    (h : pad_value.length = 1 ∨ pad_value.length = 3) :
    ∃ c, ApplyResize_pad_val 3 pad_value = Except.ok c := by
  rcases h with h | h
  · match pad_value, h with
    | [a], _ => exact ⟨(a, a, a), by simp [ApplyResize_pad_val, pad_values, List.range]; rfl⟩
  · match pad_value, h with
    | [a, b, c], _ => exact ⟨(a, b, c), by simp [ApplyResize_pad_val, pad_values]⟩

/-- C16 (failing input): for a single-channel image and the single pad value
`[0]`, a list of valid length, the vector `pad_values` has one element and the
reads `pad_values[1]` and `pad_values[2]` are out of range. -/
theorem pad_val_single_channel_out_of_range :
    ((1 : Nat) = 1 ∨ (1 : Nat) = 3)
    ∧ (pad_values 1 [0]).length = 1
    ∧ (pad_values 1 [0])[1]? = none
    ∧ (pad_values 1 [0])[2]? = none
    ∧ ApplyResize_pad_val 1 [0] = Except.error ResizeError.read_out_of_range := by
  refine ⟨Or.inl rfl, by rfl, by rfl, by rfl, by rfl⟩

/-! ## Theorems: range of the peeling loops -/

/-- C15 (failing input): on the 2x2 mask of one colour all four tested edges
are uniform, the bottom loop reads row 0, shrinks `win.height` to 1, passes
its guard `win.height > 0` and then reads `Rect(0, -1, 2, 1)`, a row outside
the mask: the range assertion throws and `CropMask` returns no window. -/
theorem crop_mask_uniform_reads_outside :
    mask_uniform.rows = 2 ∧ mask_uniform.cols = 2
    ∧ count_border_edges mask_uniform = Except.ok 4
    ∧ mask_uniform.roi ⟨0, 2 - 2, 2, 1⟩ = Except.ok [0, 0]
    ∧ mask_uniform.roi ⟨0, 1 - 2, 2, 1⟩ = Except.error CvError.roi_out_of_range
    ∧ peel mask_uniform 0 = Except.error CvError.roi_out_of_range
    ∧ CropMask mask_uniform 0 2 = Except.error CvError.roi_out_of_range := by
  refine ⟨by rfl, by rfl, by rfl, by rfl, by rfl, by rfl, by rfl⟩

/-! ## Theorems: noise chain -/

/-- A gate whose flag is false makes no roll and stays false. -/
theorem noise_gate_false (probs : List ℚ) (uniform : Nat → ℚ) (k : Nat) :
    noise_gate false probs uniform k = Except.ok (false, k) := by
  simp [noise_gate]

/-- A gated stage whose flag is false passes the image on. -/
theorem gated_stage_false (probs : List ℚ) (uniform : Nat → ℚ)
    (effect : Image → Except NoiseError Image) (st : Image × Nat) :
    gated_stage false probs uniform effect st = Except.ok st := by
  simp [gated_stage, noise_gate_false]

/-- The first stage hands on the input image whenever it returns: the test
`out_img.channels() > 1` reads the default-constructed matrix. -/
theorem decolorize_stage_passes_input (cv : External) (decolorize : Bool)
    (probs : List ℚ) (uniform : Nat → ℚ) (in_img : Image) (st : Image × Nat)
    (h : decolorize_stage cv decolorize probs uniform in_img = Except.ok st) :
    st.1 = in_img := by
  unfold decolorize_stage at h
  cases hg : noise_gate decolorize probs uniform 0 with
  | error e => rw [hg] at h; cases h
  | ok res =>
    rw [hg] at h
    obtain ⟨go, k⟩ := res
    simp [empty_Mat] at h
    rw [← h]

/-- C12 (counterexample): with every flag false, `prob = 1/2` and JPEG quality
90, a three-channel image goes through the JPEG round trip; where that is
lossy (here the sample 7 comes back as 0) the result is not the input. -/
theorem noise_without_flags_runs_jpeg :
    param_only_jpeg.no_effects
    ∧ ApplyNoise cv_lossy_jpeg param_only_jpeg (fun _ => 0) (fun _ => 0) image_one_pixel
        = Except.ok (cv_lossy_jpeg.jpeg_round_trip 90 image_one_pixel)
    ∧ (cv_lossy_jpeg.jpeg_round_trip 90 image_one_pixel).px 0 0 0 = 0
    ∧ image_one_pixel.px 0 0 0 = 7
    ∧ ApplyNoise cv_lossy_jpeg param_only_jpeg (fun _ => 0) (fun _ => 0) image_one_pixel
        ≠ Except.ok image_one_pixel := by
  have h1 : ApplyNoise cv_lossy_jpeg param_only_jpeg (fun _ => 0) (fun _ => 0)
      image_one_pixel = Except.ok (cv_lossy_jpeg.jpeg_round_trip 90 image_one_pixel) := by
    simp [ApplyNoise, param_only_jpeg, decolorize_stage, gated_stage_false,
      noise_gate_false, jpeg_stage, image_one_pixel, empty_Mat]
  refine ⟨by simp [NoiseParameter.no_effects, param_only_jpeg], h1, by rfl, by rfl, ?_⟩
  rw [h1]
  intro hcon
  injection hcon with hcon
  have h2 := congrArg (fun img : Image => img.px 0 0 0) hcon
  revert h2
  decide

/-- C12 (amended): with every flag false `ApplyNoise` makes no roll and
applies no gated effect; it returns the input image itself unless
`prob != 0`, `jpeg > 0` and the image has more than one channel, in which
case it returns the JPEG round trip of the input. -/
theorem noise_without_flags (cv : External) (param : NoiseParameter)
    (uniform : Nat → ℚ) (rand : Nat → Nat) (in_img : Image)
    (hflags : param.no_effects) :
    ApplyNoise cv param uniform rand in_img
      = Except.ok (if param.prob ≠ 0 ∧ param.jpeg > 0 ∧ in_img.channels > 1 then
          cv.jpeg_round_trip param.jpeg in_img else in_img)
    ∧ (param.prob = 0 ∨ param.jpeg ≤ 0 ∨ in_img.channels ≤ 1 →
        ApplyNoise cv param uniform rand in_img = Except.ok in_img) := by
  obtain ⟨f1, f2, f3, f4, f5, f6, f7, f8, f9, f10, f11⟩ := hflags
  have main : ApplyNoise cv param uniform rand in_img
      = Except.ok (if param.prob ≠ 0 ∧ param.jpeg > 0 ∧ in_img.channels > 1 then
          cv.jpeg_round_trip param.jpeg in_img else in_img) := by
    unfold ApplyNoise
    by_cases hp : param.prob = 0
    · simp [hp]
    · simp only [hp, if_false, f1, f2, f3, f4, f5, f6, f7, f8, f9, f10, f11, Bool.or_false,
        decolorize_stage, noise_gate_false, gated_stage_false, jpeg_stage]
      by_cases hj : param.jpeg > 0 ∧ in_img.channels > 1
      · simp [hj, hp, empty_Mat]
      · simp [hj, empty_Mat]
  refine ⟨main, ?_⟩
  intro h
  rw [main]
  have hneg : ¬ (param.prob ≠ 0 ∧ param.jpeg > 0 ∧ in_img.channels > 1) := by
    rintro ⟨h1, h2, h3⟩
    rcases h with h | h | h
    · exact h1 h
    · omega
    · omega
  rw [if_neg hneg]

/-- Witness for C12 (amended): every flag false, `prob = 1/2`, no JPEG
quality (`jpeg = -1`), on a three-channel image. -/
theorem noise_without_flags_witness :
    ApplyNoise cv_lossy_jpeg { param_only_jpeg with jpeg := -1 } (fun _ => 0) (fun _ => 0)
      image_one_pixel = Except.ok image_one_pixel :=
  (noise_without_flags cv_lossy_jpeg { param_only_jpeg with jpeg := -1 } (fun _ => 0)
    (fun _ => 0) image_one_pixel
    (by simp [NoiseParameter.no_effects, param_only_jpeg])).2
    (Or.inr (Or.inl (by decide)))

/-- C13 (failing input): with `prob = 1`, only `decolorize` set and the draw
1/2 the gate of `decolorize` returns 1, yet for every image (of three
channels or not) the first stage hands on the input image, not its gray
conversion, and `ApplyNoise` returns the input: the stage tests
`out_img.channels() > 1` on the still empty `out_img`. -/
theorem decolorize_gate_open_but_skipped (cv : External) (in_img : Image) :
    roll_weighted_die (binary_probs 1) (1 / 2) = some 1
    ∧ noise_gate true (binary_probs 1) (fun _ => 1 / 2) 0 = Except.ok (true, 1)
    ∧ decolorize_stage cv true (binary_probs 1) (fun _ => 1 / 2) in_img
        = Except.ok (in_img, 1)
    ∧ ApplyNoise cv param_only_decolorize (fun _ => 1 / 2) (fun _ => 0) in_img
        = Except.ok in_img := by
  have hroll : roll_weighted_die (binary_probs 1) (1 / 2) = some 1 := by
    simp [roll_weighted_die, binary_probs, partial_sum, partial_sum_from, lower_bound,
      lower_bound_loop]
    norm_num
  have hgate : noise_gate true (binary_probs 1) (fun _ => 1 / 2) 0 = Except.ok (true, 1) := by
    simp only [noise_gate, if_true, hroll]
    rfl
  have hstage : decolorize_stage cv true (binary_probs 1) (fun _ => 1 / 2) in_img
      = Except.ok (in_img, 1) := by
    simp only [decolorize_stage, hgate, empty_Mat]
    rfl
  have hprob : ¬ ((1 : ℚ) = 0) := by norm_num
  refine ⟨hroll, hgate, hstage, ?_⟩
  simp only [ApplyNoise, param_only_decolorize, hprob, if_false, Bool.or_false, hstage,
    gated_stage_false, jpeg_stage]
  rfl

/-- One iteration of `constantNoise` on an image of one or three channels
with a value for each channel: the drawn position gets the values, every
other sample stays. -/
theorem constantNoise_step_spec (val : List Nat) (rand : Nat → Nat) (k : Nat)
    (image : Image) (hch : image.channels = 1 ∨ image.channels = 3)
    (hv : image.channels ≤ val.length) :
    ∃ img, constantNoise_step val rand k image = Except.ok img
      ∧ img.rows = image.rows ∧ img.cols = image.cols ∧ img.channels = image.channels
      ∧ ∀ r c ch, ch < image.channels →
          img.px r c ch
            = if r = rand (2 * k + 1) % image.rows ∧ c = rand (2 * k) % image.cols then
                val.getD ch 0 else image.px r c ch := by
  rcases hch with h1 | h3
  · match val, hv with
    | [], hv => simp [h1] at hv
    | v0 :: tl, _ =>
      refine ⟨image.set (rand (2 * k + 1) % image.rows) (rand (2 * k) % image.cols) 0 v0,
        ?_, rfl, rfl, rfl, ?_⟩
      · simp [constantNoise_step, h1]
      · intro r c ch hlt
        have hc0 : ch = 0 := by omega
        subst hc0
        simp [Image.set]
  · match val, hv with
    | [], hv => simp [h3] at hv
    | [_], hv => simp [h3] at hv
    | [_, _], hv => simp [h3] at hv
    | v0 :: v1 :: v2 :: tl, _ =>
      refine ⟨((image.set (rand (2 * k + 1) % image.rows) (rand (2 * k) % image.cols) 0 v0).set
          (rand (2 * k + 1) % image.rows) (rand (2 * k) % image.cols) 1 v1).set
          (rand (2 * k + 1) % image.rows) (rand (2 * k) % image.cols) 2 v2,
        ?_, rfl, rfl, rfl, ?_⟩
      · simp [constantNoise_step, h3, Image.set]
      · intro r c ch hlt
        have hc : ch = 0 ∨ ch = 1 ∨ ch = 2 := by omega
        rcases hc with hc | hc | hc <;> subst hc <;> simp [Image.set]

/-- The loop of `constantNoise` on an image of one or three channels with a
value for each channel: it returns an image of the same size in which every
drawn position holds the values and every other sample is as before. -/
theorem constantNoise_from_spec (val : List Nat) (rand : Nat → Nat) :
    ∀ (m k : Nat) (image : Image), (image.channels = 1 ∨ image.channels = 3) →
      image.channels ≤ val.length →
      ∃ img, constantNoise_from val rand m k image = Except.ok img
        ∧ img.rows = image.rows ∧ img.cols = image.cols ∧ img.channels = image.channels
        ∧ ∀ r c ch, ch < image.channels →
            (drawn rand image.rows image.cols k m r c → img.px r c ch = val.getD ch 0)
            ∧ (¬ drawn rand image.rows image.cols k m r c →
                img.px r c ch = image.px r c ch) := by
  intro m
  induction m with
  | zero =>
    intro k image _ _
    refine ⟨image, rfl, rfl, rfl, rfl, ?_⟩
    intro r c ch _
    constructor
    · rintro ⟨t, h1, h2, _⟩
      omega
    · intro _
      rfl
  | succ m ih =>
    intro k image hch hv
    obtain ⟨img1, hstep, hr1, hc1, hn1, hpx1⟩ := constantNoise_step_spec val rand k image hch hv
    obtain ⟨img, hrest, hr, hc, hn, hpx⟩ := ih (k + 1) img1 (by rw [hn1]; exact hch)
      (by rw [hn1]; exact hv)
    refine ⟨img, ?_, by rw [hr, hr1], by rw [hc, hc1], by rw [hn, hn1], ?_⟩
    · simp only [constantNoise_from, hstep]
      exact hrest
    · intro r c ch hlt
      have hlt1 : ch < img1.channels := by rw [hn1]; exact hlt
      obtain ⟨hin, hout⟩ := hpx r c ch hlt1
      rw [hr1, hc1] at hin hout
      have hsplit : drawn rand image.rows image.cols k (m + 1) r c ↔
          (r = rand (2 * k + 1) % image.rows ∧ c = rand (2 * k) % image.cols)
            ∨ drawn rand image.rows image.cols (k + 1) m r c := by
        constructor
        · rintro ⟨t, h1, h2, h3, h4⟩
          by_cases htk : t = k
          · subst htk
            exact Or.inl ⟨h3, h4⟩
          · exact Or.inr ⟨t, by omega, by omega, h3, h4⟩
        · rintro (⟨h3, h4⟩ | ⟨t, h1, h2, h3, h4⟩)
          · exact ⟨k, le_refl _, by omega, h3, h4⟩
          · exact ⟨t, by omega, by omega, h3, h4⟩
      by_cases hlater : drawn rand image.rows image.cols (k + 1) m r c
      · constructor
        · intro _
          exact hin hlater
        · intro hno
          exact absurd (hsplit.2 (Or.inr hlater)) hno
      · rw [hout hlater, hpx1 r c ch hlt]
        constructor
        · intro hd
          rcases hsplit.1 hd with hnow | hl
          · rw [if_pos hnow]
          · exact absurd hl hlater
        · intro hno
          have hnow : ¬ (r = rand (2 * k + 1) % image.rows ∧ c = rand (2 * k) % image.cols) :=
            fun h => hno (hsplit.2 (Or.inl h))
          rw [if_neg hnow]

/-- The vector `noise_values` for an image of one or three channels and a
value list of valid length: one `uchar` value per channel. -/
theorem noise_values_spec (channels : Nat) (value : List Nat)
    (hch : channels = 1 ∨ channels = 3)
    (hval : value.length = 1 ∨ value.length = channels) :
    ∃ vals, noise_values channels value = Except.ok vals ∧ channels ≤ vals.length
      ∧ ∀ ch, ch < channels →
          vals.getD ch 0 = value.getD (if value.length = 1 then 0 else ch) 0 % 256 := by
  rcases hch with h1 | h3
  · subst h1
    have hlen : value.length = 1 := by omega
    match value, hlen with
    | [a], _ =>
      refine ⟨[a % 256], by simp [noise_values], by simp, ?_⟩
      intro ch hlt
      have : ch = 0 := by omega
      subst this
      simp
  · subst h3
    rcases hval with hl | hl
    · match value, hl with
      | [a], _ =>
        refine ⟨[a % 256, a % 256, a % 256], ?_, by simp, ?_⟩
        · simp [noise_values, List.range_succ]
        · intro ch hlt
          have hc : ch = 0 ∨ ch = 1 ∨ ch = 2 := by omega
          rcases hc with hc | hc | hc <;> subst hc <;> simp
    · match value, hl with
      | [a, b, c], _ =>
        refine ⟨[a % 256, b % 256, c % 256], by simp [noise_values], by simp, ?_⟩
        intro ch hlt
        have hc : ch = 0 ∨ ch = 1 ∨ ch = 2 := by omega
        rcases hc with hc | hc | hc <;> subst hc <;> simp

/-- C11 (counterexample): on the single-channel image of one row with the
samples 7 and 9, fill value 255 and fraction 1, two positions are drawn; when
both draws give column 0 the sample at column 1 is still 9. -/
theorem saltpepper_full_fraction_misses_pixel :
    saltpepper_block 1 [255] (fun _ => 0) image_two_pixels
      = Except.ok ((image_two_pixels.set 0 0 0 255).set 0 0 0 255)
    ∧ ((image_two_pixels.set 0 0 0 255).set 0 0 0 255).px 0 0 0 = 255
    ∧ ((image_two_pixels.set 0 0 0 255).set 0 0 0 255).px 0 1 0 = 9 := by
  refine ⟨?_, by rfl, by rfl⟩
  have hn : ⌊(1 : ℚ) * ((2 : Nat) : ℚ) * ((1 : Nat) : ℚ)⌋ = 2 := by norm_num
  simp only [saltpepper_block, noise_values, image_two_pixels]
  simp only [List.length_singleton, gt_iff_lt, Nat.lt_one_iff, Nat.pos_of_ne_zero,
    zero_lt_one, if_true, true_or, lt_self_iff_false, false_and, if_false, hn]
  rfl

/-- C11 (amended): for an image of one or three channels and a fill value
list of valid length, the salt-and-pepper block with fraction 1 draws
`cols * rows` positions (with repetition) and returns an image of the same
size in which every drawn position holds the fill value(s) and every
position that was not drawn keeps its samples. -/
theorem saltpepper_full_fraction (value : List Nat) (rand : Nat → Nat) (out_img : Image)
    (hch : out_img.channels = 1 ∨ out_img.channels = 3)
    (hval : value.length = 1 ∨ value.length = out_img.channels) :
    ∃ img, saltpepper_block 1 value rand out_img = Except.ok img
      ∧ img.rows = out_img.rows ∧ img.cols = out_img.cols
      ∧ img.channels = out_img.channels
      ∧ ∀ r c ch, ch < out_img.channels →
          (drawn rand out_img.rows out_img.cols 0 (out_img.cols * out_img.rows) r c →
            img.px r c ch = value.getD (if value.length = 1 then 0 else ch) 0 % 256)
          ∧ (¬ drawn rand out_img.rows out_img.cols 0 (out_img.cols * out_img.rows) r c →
            img.px r c ch = out_img.px r c ch) := by
  obtain ⟨vals, hvals, hlen, hget⟩ := noise_values_spec out_img.channels value hch hval
  have hn : ⌊(1 : ℚ) * (out_img.cols : ℚ) * (out_img.rows : ℚ)⌋
      = ((out_img.cols * out_img.rows : Nat) : Int) := by
    have : (1 : ℚ) * (out_img.cols : ℚ) * (out_img.rows : ℚ)
        = ((out_img.cols * out_img.rows : Nat) : ℚ) := by push_cast; ring
    rw [this]
    exact Int.floor_natCast _
  obtain ⟨img, hrun, hr, hc, hk, hpx⟩ :=
    constantNoise_from_spec vals rand (out_img.cols * out_img.rows) 0 out_img hch hlen
  refine ⟨img, ?_, hr, hc, hk, ?_⟩
  · simp only [saltpepper_block, hvals, hn, constantNoise, Int.toNat_ofNat]
    exact hrun
  · intro r c ch hlt
    obtain ⟨hin, hout⟩ := hpx r c ch hlt
    rw [hget ch hlt] at hin
    exact ⟨hin, hout⟩

/-- Witness for C11 (amended): the single-channel image of one row and two
columns with fill value 255. -/
theorem saltpepper_full_fraction_witness :
    ∃ img, saltpepper_block 1 [255] (fun _ => 0) image_two_pixels = Except.ok img
      ∧ img.rows = image_two_pixels.rows ∧ img.cols = image_two_pixels.cols
      ∧ img.channels = image_two_pixels.channels
      ∧ ∀ r c ch, ch < image_two_pixels.channels →
          (drawn (fun _ => 0) image_two_pixels.rows image_two_pixels.cols 0
              (image_two_pixels.cols * image_two_pixels.rows) r c →
            img.px r c ch
              = ([255] : List Nat).getD (if ([255] : List Nat).length = 1 then 0 else ch) 0 % 256)
          ∧ (¬ drawn (fun _ => 0) image_two_pixels.rows image_two_pixels.cols 0
              (image_two_pixels.cols * image_two_pixels.rows) r c →
            img.px r c ch = image_two_pixels.px r c ch) :=
  saltpepper_full_fraction [255] (fun _ => 0) image_two_pixels (Or.inl rfl) (Or.inl rfl)

/-! ## Theorems: the crop window keeps the foreground -/

/-- The fold of `is_border` started at `b` is `b` and all pixels equal. -/
theorem is_border_foldl (color : Nat) : ∀ (edge : List Nat) (b : Bool),
    edge.foldl (fun res v => res && (color == v)) b
      = (b && edge.all fun v => color == v) := by
  intro edge
  induction edge with
  | nil => intro b; simp
  | cons v vs ih =>
    intro b
    simp only [List.foldl_cons, List.all_cons, ih]
    cases b <;> simp

/-- The function `is_border` says whether every pixel of the edge has the
colour. -/
theorem is_border_iff (edge : List Nat) (color : Nat) :
    is_border edge color = true ↔ ∀ v ∈ edge, v = color := by
  unfold is_border
  rw [is_border_foldl]
  simp only [Bool.true_and, List.all_eq_true, beq_iff_eq]
  constructor
  · intro h v hv
    exact (h v hv).symm
  · intro h v hv
    exact (h v hv).symm

/-- A rectangle inside the mask is returned by `src(roi)`, and `is_border`
on it says whether all its pixels have the colour. -/
theorem roi_border (src : Mat) (r : Rect) (color : Nat)
    (hv : 0 ≤ r.x ∧ 0 ≤ r.width ∧ r.x + r.width ≤ src.cols ∧
      0 ≤ r.y ∧ 0 ≤ r.height ∧ r.y + r.height ≤ src.rows) :
    ∃ edge, src.roi r = Except.ok edge
      ∧ (is_border edge color = true ↔ src.region_is r color) := by
  unfold Mat.roi
  rw [if_pos hv]
  refine ⟨_, rfl, ?_⟩
  rw [is_border_iff]
  simp only [List.mem_flatMap, List.mem_map, List.mem_range, Mat.region_is]
  constructor
  · intro h rr cc h1 h2 h3 h4
    apply h
    refine ⟨rr - r.y.toNat, by omega, cc - r.x.toNat, by omega, ?_⟩
    have e1 : r.y.toNat + (rr - r.y.toNat) = rr := by omega
    have e2 : r.x.toNat + (cc - r.x.toNat) = cc := by omega
    rw [e1, e2]
  · rintro h v ⟨i, hi, j, hj, rfl⟩
    apply h
    · omega
    · omega
    · omega
    · omega

/-- The bottom loop goes on after an edge that is border when its guard
holds. -/
theorem peel_bottom_continue (src : Mat) (color fuel : Nat) (win : Rect) (edge : List Nat)
    (hroi : src.roi ⟨win.x, win.height - 2, win.width, 1⟩ = Except.ok edge)
    (hb : is_border edge color = true) (hg : win.height - 1 > 0) :
    peel_bottom src color (fuel + 1) win
      = peel_bottom src color fuel { win with height := win.height - 1 } := by
  simp [peel_bottom, hroi, hb, hg]

/-- The bottom loop stops with its window at an edge that is not border. -/
theorem peel_bottom_stop (src : Mat) (color fuel : Nat) (win : Rect) (edge : List Nat)
    (hroi : src.roi ⟨win.x, win.height - 2, win.width, 1⟩ = Except.ok edge)
    (hb : is_border edge color = false) :
    peel_bottom src color (fuel + 1) win = Except.ok win := by
  simp [peel_bottom, hroi, hb]

/-- The right loop goes on after an edge that is border when its guard
holds. -/
theorem peel_right_continue (src : Mat) (color fuel : Nat) (win : Rect) (edge : List Nat)
    (hroi : src.roi ⟨win.width - 2, win.y, 1, win.height⟩ = Except.ok edge)
    (hb : is_border edge color = true) (hg : win.width - 1 > 0) :
    peel_right src color (fuel + 1) win
      = peel_right src color fuel { win with width := win.width - 1 } := by
  simp [peel_right, hroi, hb, hg]

/-- The right loop stops with its window at an edge that is not border. -/
theorem peel_right_stop (src : Mat) (color fuel : Nat) (win : Rect) (edge : List Nat)
    (hroi : src.roi ⟨win.width - 2, win.y, 1, win.height⟩ = Except.ok edge)
    (hb : is_border edge color = false) :
    peel_right src color (fuel + 1) win = Except.ok win := by
  simp [peel_right, hroi, hb]

/-- The top loop goes on after an edge that is border when its guard
holds. -/
theorem peel_top_continue (src : Mat) (color fuel : Nat) (win : Rect) (edge : List Nat)
    (hroi : src.roi ⟨win.x, win.y, win.width, 1⟩ = Except.ok edge)
    (hb : is_border edge color = true) (hg : win.y + 1 ≤ src.rows) :
    peel_top src color (fuel + 1) win
      = peel_top src color fuel { win with y := win.y + 1, height := win.height - 1 } := by
  simp [peel_top, hroi, hb, hg]

/-- The top loop stops with its window at an edge that is not border. -/
theorem peel_top_stop (src : Mat) (color fuel : Nat) (win : Rect) (edge : List Nat)
    (hroi : src.roi ⟨win.x, win.y, win.width, 1⟩ = Except.ok edge)
    (hb : is_border edge color = false) :
    peel_top src color (fuel + 1) win = Except.ok win := by
  simp [peel_top, hroi, hb]

/-- The left loop goes on after an edge that is border when its guard
holds. -/
theorem peel_left_continue (src : Mat) (color fuel : Nat) (win : Rect) (edge : List Nat)
    (hroi : src.roi ⟨win.x, win.y, 1, win.height⟩ = Except.ok edge)
    (hb : is_border edge color = true) (hg : win.x + 1 ≤ src.cols) :
    peel_left src color (fuel + 1) win
      = peel_left src color fuel { win with x := win.x + 1, width := win.width - 1 } := by
  simp [peel_left, hroi, hb, hg]

/-- The left loop stops with its window at an edge that is not border. -/
theorem peel_left_stop (src : Mat) (color fuel : Nat) (win : Rect) (edge : List Nat)
    (hroi : src.roi ⟨win.x, win.y, 1, win.height⟩ = Except.ok edge)
    (hb : is_border edge color = false) :
    peel_left src color (fuel + 1) win = Except.ok win := by
  simp [peel_left, hroi, hb]

/-- A rectangle that is not wholly of the colour holds a pixel of another
colour. -/
theorem region_is_false (src : Mat) (r : Rect) (color : Nat)
    (h : ¬ src.region_is r color) :
    ∃ rr cc : Nat, r.y ≤ (rr : Int) ∧ (rr : Int) < r.y + r.height ∧
      r.x ≤ (cc : Int) ∧ (cc : Int) < r.x + r.width ∧ src.px rr cc ≠ color := by
  unfold Mat.region_is at h
  push_neg at h
  exact h

/-- The bottom loop on a mask with foreground, started with every foreground
pixel at least two rows above the window height: it returns a window of the
full width whose height still has that property, and the row two above the
height holds a foreground pixel. -/
theorem peel_bottom_spec (src : Mat) (hcols : 0 ≤ src.cols)
    (hfg : ∃ r c, src.foreground r c) :
    ∀ (fuel : Nat) (h : Int), h.toNat < fuel → h ≤ src.rows →
      (∀ r c, src.foreground r c → (r : Int) + 2 ≤ h) →
      ∃ h1 : Int, peel_bottom src (src.px 0 0) fuel ⟨0, 0, src.cols, h⟩
          = Except.ok ⟨0, 0, src.cols, h1⟩
        ∧ h1 ≤ h ∧ (∀ r c, src.foreground r c → (r : Int) + 2 ≤ h1)
        ∧ ∃ r c, src.foreground r c ∧ (r : Int) = h1 - 2 := by
  intro fuel
  induction fuel with
  | zero => intro h hf; omega
  | succ fuel ih =>
    intro h hf hle hinv
    obtain ⟨r0, c0, hfg0⟩ := hfg
    have h2 : 2 ≤ h := by
      have := hinv r0 c0 hfg0
      omega
    obtain ⟨edge, hroi, hb⟩ := roi_border src ⟨0, h - 2, src.cols, 1⟩ (src.px 0 0)
      (by simp only; omega)
    cases hbe : is_border edge (src.px 0 0) with
    | true =>
      have hreg := hb.1 hbe
      rw [peel_bottom_continue src _ fuel ⟨0, 0, src.cols, h⟩ edge hroi hbe
        (by simp only; omega)]
      obtain ⟨h1, e, hle1, hinv1, hex⟩ := ih (h - 1) (by omega) (by omega) (by
        intro r c hf1
        have hr := hinv r c hf1
        by_contra hcon
        have hrow : (r : Int) = h - 2 := by omega
        exact hf1.2.2 (hreg r c (by simp only; omega) (by simp only; omega)
          (by simp only; omega) (by simp only; have := hf1.2.1; omega)))
      exact ⟨h1, e, by omega, hinv1, hex⟩
    | false =>
      rw [peel_bottom_stop src _ fuel ⟨0, 0, src.cols, h⟩ edge hroi hbe]
      have hnreg : ¬ src.region_is ⟨0, h - 2, src.cols, 1⟩ (src.px 0 0) := by
        intro hr
        rw [hb.2 hr] at hbe
        cases hbe
      obtain ⟨rr, cc, a1, a2, a3, a4, a5⟩ := region_is_false src _ _ hnreg
      simp only at a1 a2 a3 a4
      exact ⟨h, rfl, le_refl _, hinv, rr, cc, ⟨by omega, by omega, a5⟩, by omega⟩

/-- The right loop on a mask with foreground, started with every foreground
pixel above the window height and at least two columns left of the window
width: it returns a window whose width still has that property, and the
column two left of the width holds a foreground pixel. -/
theorem peel_right_spec (src : Mat) (h1 : Int) (hh0 : 0 ≤ h1) (hh1 : h1 ≤ src.rows)
    (hrows : ∀ r c, src.foreground r c → (r : Int) < h1)
    (hfg : ∃ r c, src.foreground r c) :
    ∀ (fuel : Nat) (w : Int), w.toNat < fuel → w ≤ src.cols →
      (∀ r c, src.foreground r c → (c : Int) + 2 ≤ w) →
      ∃ w2 : Int, peel_right src (src.px 0 0) fuel ⟨0, 0, w, h1⟩
          = Except.ok ⟨0, 0, w2, h1⟩
        ∧ w2 ≤ w ∧ (∀ r c, src.foreground r c → (c : Int) + 2 ≤ w2)
        ∧ ∃ r c, src.foreground r c ∧ (c : Int) = w2 - 2 := by
  intro fuel
  induction fuel with
  | zero => intro w hf; omega
  | succ fuel ih =>
    intro w hf hle hinv
    obtain ⟨r0, c0, hfg0⟩ := hfg
    have h2 : 2 ≤ w := by
      have := hinv r0 c0 hfg0
      omega
    obtain ⟨edge, hroi, hb⟩ := roi_border src ⟨w - 2, 0, 1, h1⟩ (src.px 0 0)
      (by simp only; omega)
    cases hbe : is_border edge (src.px 0 0) with
    | true =>
      have hreg := hb.1 hbe
      rw [peel_right_continue src _ fuel ⟨0, 0, w, h1⟩ edge hroi hbe (by simp only; omega)]
      obtain ⟨w2, e, hle2, hinv2, hex⟩ := ih (w - 1) (by omega) (by omega) (by
        intro r c hf1
        have hc := hinv r c hf1
        have hr := hrows r c hf1
        by_contra hcon
        have hcol : (c : Int) = w - 2 := by omega
        exact hf1.2.2 (hreg r c (by simp only; omega) (by simp only; omega)
          (by simp only; omega) (by simp only; omega)))
      exact ⟨w2, e, by omega, hinv2, hex⟩
    | false =>
      rw [peel_right_stop src _ fuel ⟨0, 0, w, h1⟩ edge hroi hbe]
      have hnreg : ¬ src.region_is ⟨w - 2, 0, 1, h1⟩ (src.px 0 0) := by
        intro hr
        rw [hb.2 hr] at hbe
        cases hbe
      obtain ⟨rr, cc, a1, a2, a3, a4, a5⟩ := region_is_false src _ _ hnreg
      simp only at a1 a2 a3 a4
      exact ⟨w, rfl, le_refl _, hinv, rr, cc, ⟨by omega, by omega, a5⟩, by omega⟩

/-- The top loop on a mask with foreground, started with every foreground
pixel left of the window width and not above `win.y`: it returns a window
with the same bottom bound whose `y` still has that property. -/
theorem peel_top_spec (src : Mat) (w2 T : Int) (hw0 : 0 ≤ w2) (hw1 : w2 ≤ src.cols)
    (hcolsfg : ∀ r c, src.foreground r c → (c : Int) < w2)
    (hfg : ∃ r c, src.foreground r c) :
    ∀ (fuel : Nat) (y : Int), (src.rows - y).toNat < fuel → 0 ≤ y →
      (∀ r c, src.foreground r c → y ≤ (r : Int)) →
      ∃ y1 : Int, peel_top src (src.px 0 0) fuel ⟨0, y, w2, T - y⟩
          = Except.ok ⟨0, y1, w2, T - y1⟩
        ∧ y ≤ y1 ∧ (∀ r c, src.foreground r c → y1 ≤ (r : Int)) := by
  intro fuel
  induction fuel with
  | zero => intro y hf; omega
  | succ fuel ih =>
    intro y hf hy hinv
    obtain ⟨r0, c0, hfg0⟩ := hfg
    have hy1 : y + 1 ≤ src.rows := by
      have := hinv r0 c0 hfg0
      have := hfg0.1
      omega
    obtain ⟨edge, hroi, hb⟩ := roi_border src ⟨0, y, w2, 1⟩ (src.px 0 0)
      (by simp only; omega)
    cases hbe : is_border edge (src.px 0 0) with
    | true =>
      have hreg := hb.1 hbe
      rw [peel_top_continue src _ fuel ⟨0, y, w2, T - y⟩ edge hroi hbe (by simp only; omega)]
      have e : ({ (⟨0, y, w2, T - y⟩ : Rect) with y := y + 1, height := T - y - 1 } : Rect)
          = ⟨0, y + 1, w2, T - (y + 1)⟩ := by
        simp only [Rect.mk.injEq, true_and]
        omega
      simp only at e ⊢
      rw [e]
      obtain ⟨y1, e1, hle1, hinv1⟩ := ih (y + 1) (by omega) (by omega) (by
        intro r c hf1
        have hr := hinv r c hf1
        have hc := hcolsfg r c hf1
        by_contra hcon
        have hrow : (r : Int) = y := by omega
        exact hf1.2.2 (hreg r c (by simp only; omega) (by simp only; omega)
          (by simp only; omega) (by simp only; omega)))
      exact ⟨y1, e1, by omega, hinv1⟩
    | false =>
      rw [peel_top_stop src _ fuel ⟨0, y, w2, T - y⟩ edge hroi hbe]
      exact ⟨y, rfl, le_refl _, hinv⟩

/-- The left loop on a mask with foreground, started with every foreground
pixel between the top and the bottom of the window and not left of `win.x`:
it returns a window with the same right bound whose `x` still has that
property. -/
theorem peel_left_spec (src : Mat) (y hh W : Int) (hy0 : 0 ≤ y) (hh0 : 0 ≤ hh)
    (hyh : y + hh ≤ src.rows)
    (hrowsfg : ∀ r c, src.foreground r c → y ≤ (r : Int) ∧ (r : Int) < y + hh)
    (hfg : ∃ r c, src.foreground r c) :
    ∀ (fuel : Nat) (x : Int), (src.cols - x).toNat < fuel → 0 ≤ x →
      (∀ r c, src.foreground r c → x ≤ (c : Int)) →
      ∃ x1 : Int, peel_left src (src.px 0 0) fuel ⟨x, y, W - x, hh⟩
          = Except.ok ⟨x1, y, W - x1, hh⟩
        ∧ x ≤ x1 ∧ (∀ r c, src.foreground r c → x1 ≤ (c : Int)) := by
  intro fuel
  induction fuel with
  | zero => intro x hf; omega
  | succ fuel ih =>
    intro x hf hx hinv
    obtain ⟨r0, c0, hfg0⟩ := hfg
    have hx1 : x + 1 ≤ src.cols := by
      have := hinv r0 c0 hfg0
      have := hfg0.2.1
      omega
    obtain ⟨edge, hroi, hb⟩ := roi_border src ⟨x, y, 1, hh⟩ (src.px 0 0)
      (by simp only; omega)
    cases hbe : is_border edge (src.px 0 0) with
    | true =>
      have hreg := hb.1 hbe
      rw [peel_left_continue src _ fuel ⟨x, y, W - x, hh⟩ edge hroi hbe (by simp only; omega)]
      have e : ({ (⟨x, y, W - x, hh⟩ : Rect) with x := x + 1, width := W - x - 1 } : Rect)
          = ⟨x + 1, y, W - (x + 1), hh⟩ := by
        simp only [Rect.mk.injEq, true_and, and_true]
        omega
      simp only at e ⊢
      rw [e]
      obtain ⟨x1, e1, hle1, hinv1⟩ := ih (x + 1) (by omega) (by omega) (by
        intro r c hf1
        have hc := hinv r c hf1
        have hr := hrowsfg r c hf1
        by_contra hcon
        have hcol : (c : Int) = x := by omega
        exact hf1.2.2 (hreg r c (by simp only; omega) (by simp only; omega)
          (by simp only; omega) (by simp only; omega)))
      exact ⟨x1, e1, by omega, hinv1⟩
    | false =>
      rw [peel_left_stop src _ fuel ⟨x, y, W - x, hh⟩ edge hroi hbe]
      exact ⟨x, rfl, le_refl _, hinv⟩

/-- On a mask of at least two rows and columns the edge test returns a
count, and a count of four means that column `cols - 2` and row `rows - 2`
are wholly of the colour of the top-left pixel. -/
theorem count_border_edges_spec (src : Mat) (hrows : 2 ≤ src.rows) (hcols : 2 ≤ src.cols) :
    ∃ n, count_border_edges src = Except.ok n
      ∧ (¬ n < 4 → src.region_is ⟨src.cols - 2, 0, 1, src.rows⟩ (src.px 0 0)
          ∧ src.region_is ⟨0, src.rows - 2, src.cols, 1⟩ (src.px 0 0)) := by
  obtain ⟨e0, h0, _⟩ := roi_border src ⟨0, 0, src.cols, 1⟩ (src.px 0 0) (by simp only; omega)
  obtain ⟨e1, h1, b1⟩ := roi_border src ⟨src.cols - 2, 0, 1, src.rows⟩ (src.px 0 0)
    (by simp only; omega)
  obtain ⟨e2, h2, b2⟩ := roi_border src ⟨0, src.rows - 2, src.cols, 1⟩ (src.px 0 0)
    (by simp only; omega)
  obtain ⟨e3, h3, _⟩ := roi_border src ⟨0, 0, 1, src.rows⟩ (src.px 0 0) (by simp only; omega)
  have hcount : count_border_edges src
      = Except.ok ((is_border e0 (src.px 0 0)).toNat + (is_border e1 (src.px 0 0)).toNat
          + (is_border e2 (src.px 0 0)).toNat + (is_border e3 (src.px 0 0)).toNat) := by
    simp only [count_border_edges, h0, h1, h2, h3]
  refine ⟨_, hcount, ?_⟩
  intro hn
  have hb1 : is_border e1 (src.px 0 0) = true := by
    by_contra hc
    simp only [Bool.not_eq_true] at hc
    rw [hc] at hn
    apply hn
    cases is_border e0 (src.px 0 0) <;> cases is_border e2 (src.px 0 0) <;>
      cases is_border e3 (src.px 0 0) <;> decide
  have hb2 : is_border e2 (src.px 0 0) = true := by
    by_contra hc
    simp only [Bool.not_eq_true] at hc
    rw [hc] at hn
    apply hn
    cases is_border e0 (src.px 0 0) <;> cases is_border e1 (src.px 0 0) <;>
      cases is_border e3 (src.px 0 0) <;> decide
  exact ⟨b1.1 hb1, b2.1 hb2⟩

/-- The padding block on a window that keeps one pixel of room to the right
and to the bottom bound of the mask: the window it returns lies in the mask
and contains every pixel that is in the given window with a column and a row
to spare on the right and at the bottom. -/
theorem add_padding_spec (src : Mat) (win : Rect) (padding : Int) (hp : 0 ≤ padding)
    (hx : 0 ≤ win.x) (hy : 0 ≤ win.y) (hw : 0 ≤ win.width) (hh : 0 ≤ win.height)
    (hr : win.x + win.width + 1 ≤ src.cols) (hb : win.y + win.height + 1 ≤ src.rows) :
    (add_padding src win padding).inside src
    ∧ ∀ r c : Nat, win.x ≤ (c : Int) → (c : Int) + 2 ≤ win.x + win.width →
        win.y ≤ (r : Int) → (r : Int) + 2 ≤ win.y + win.height →
        (add_padding src win padding).contains r c := by
  obtain ⟨x, y, w, h⟩ := win
  dsimp only at hx hy hw hh hr hb
  constructor
  · unfold add_padding Rect.inside
    dsimp only
    split_ifs <;> (try dsimp only at *) <;> omega
  · intro r c h1 h2 h3 h4
    dsimp only at h1 h2 h3 h4
    unfold add_padding Rect.contains
    dsimp only
    split_ifs <;> (try dsimp only at *) <;> omega

/-- A foreground pixel of a mask with a uniform frame is at least two rows
above the bottom bound and two columns left of the right bound. -/
theorem foreground_off_frame (src : Mat) (hframe : src.frame_uniform) (r c : Nat)
    (hf : src.foreground r c) :
    (r : Int) + 2 ≤ src.rows ∧ (c : Int) + 2 ≤ src.cols := by
  obtain ⟨hr, hc, hne⟩ := hf
  constructor
  · by_contra hcon
    have e : (src.rows - 1).toNat = r := by omega
    have := (hframe.1 c hc).2
    rw [e] at this
    exact hne this
  · by_contra hcon
    have e : (src.cols - 1).toNat = c := by omega
    have := (hframe.2 r hr).2
    rw [e] at this
    exact hne this

/-- The four loops on a mask with a uniform frame, a foreground pixel and a
uniform row `rows - 2` and column `cols - 2`: they return a window inside
the mask that keeps a pixel of room to the right and bottom bounds and holds
every foreground pixel with a column and a row to spare. -/
theorem peel_spec (src : Mat) (hframe : src.frame_uniform)
    (hfg : ∃ r c, src.foreground r c)
    (hcol : src.region_is ⟨src.cols - 2, 0, 1, src.rows⟩ (src.px 0 0))
    (hrow : src.region_is ⟨0, src.rows - 2, src.cols, 1⟩ (src.px 0 0)) :
    ∃ win : Rect, peel src (src.px 0 0) = Except.ok win
      ∧ 0 ≤ win.x ∧ 0 ≤ win.y ∧ 0 ≤ win.width ∧ 0 ≤ win.height
      ∧ win.x + win.width + 1 ≤ src.cols ∧ win.y + win.height + 1 ≤ src.rows
      ∧ ∀ r c, src.foreground r c →
          win.x ≤ (c : Int) ∧ (c : Int) + 2 ≤ win.x + win.width
          ∧ win.y ≤ (r : Int) ∧ (r : Int) + 2 ≤ win.y + win.height := by
  obtain ⟨r0, c0, hfg0⟩ := hfg
  have hoff := foreground_off_frame src hframe
  have hrows0 : 0 ≤ src.rows := by have := (hoff r0 c0 hfg0).1; omega
  have hcols0 : 0 ≤ src.cols := by have := (hoff r0 c0 hfg0).2; omega
  -- bottom
  obtain ⟨h1, e1, hle1, hinv1, rb, cb, hfb, hrb⟩ :=
    peel_bottom_spec src hcols0 ⟨r0, c0, hfg0⟩ (src.rows.toNat + 1) src.rows (by omega)
      (le_refl _) (fun r c hf => (hoff r c hf).1)
  have hh1 : h1 + 1 ≤ src.rows := by
    by_contra hcon
    have hrow2 : (rb : Int) = src.rows - 2 := by omega
    exact hfb.2.2 (hrow rb cb (by simp only; omega) (by simp only; omega)
      (by simp only; omega) (by simp only; have := hfb.2.1; omega))
  have hh1pos : 0 ≤ h1 := by have := hinv1 r0 c0 hfg0; omega
  -- right
  obtain ⟨w2, e2, hle2, hinv2, rr, cr, hfr, hcr⟩ :=
    peel_right_spec src h1 hh1pos (by omega)
      (fun r c hf => by have := hinv1 r c hf; omega) ⟨r0, c0, hfg0⟩
      (src.cols.toNat + 1) src.cols (by omega) (le_refl _) (fun r c hf => (hoff r c hf).2)
  have hw2 : w2 + 1 ≤ src.cols := by
    by_contra hcon
    have hcol2 : (cr : Int) = src.cols - 2 := by omega
    exact hfr.2.2 (hcol rr cr (by simp only; omega) (by simp only; have := hfr.1; omega)
      (by simp only; omega) (by simp only; omega))
  have hw2pos : 0 ≤ w2 := by have := hinv2 r0 c0 hfg0; omega
  -- top
  obtain ⟨y1, e3, hy0, hinv3⟩ :=
    peel_top_spec src w2 h1 hw2pos (by omega)
      (fun r c hf => by have := hinv2 r c hf; omega) ⟨r0, c0, hfg0⟩
      (src.rows.toNat + 1) 0 (by omega) (le_refl _) (fun r c _ => by omega)
  -- left
  obtain ⟨x1, e4, hx0, hinv4⟩ :=
    peel_left_spec src y1 (h1 - y1) w2 hy0
      (by have := hinv3 r0 c0 hfg0; have := hinv1 r0 c0 hfg0; omega) (by omega)
      (fun r c hf => by have := hinv3 r c hf; have := hinv1 r c hf; omega) ⟨r0, c0, hfg0⟩
      (src.cols.toNat + 1) 0 (by omega) (le_refl _) (fun r c _ => by omega)
  simp only [sub_zero] at e3 e4
  refine ⟨⟨x1, y1, w2 - x1, h1 - y1⟩, ?_, hx0, hy0, ?_, ?_, ?_, ?_, ?_⟩
  · simp only [peel, e1, e2, sub_zero, e3, e4]
  · have := hinv4 r0 c0 hfg0
    have := hinv2 r0 c0 hfg0
    show 0 ≤ w2 - x1
    omega
  · have := hinv3 r0 c0 hfg0
    have := hinv1 r0 c0 hfg0
    show 0 ≤ h1 - y1
    omega
  · show x1 + (w2 - x1) + 1 ≤ src.cols
    omega
  · show y1 + (h1 - y1) + 1 ≤ src.rows
    omega
  · intro r c hf
    have := hinv1 r c hf
    have := hinv2 r c hf
    have := hinv3 r c hf
    have := hinv4 r c hf
    refine ⟨by assumption, ?_, by assumption, ?_⟩
    · show (c : Int) + 2 ≤ x1 + (w2 - x1)
      omega
    · show (r : Int) + 2 ≤ y1 + (h1 - y1)
      omega

/-- C14: for a mask whose top row, bottom row, left column and right column
are uniformly of the colour of the pixel (0, 0) and which holds a pixel of
another colour, and for every padding at least 0, `CropMask` returns a
window that lies within the mask bounds and contains every pixel whose
colour differs from the border colour. -/
theorem crop_mask_keeps_foreground (src : Mat) (point : Nat) (padding : Int)
    (hpad : 0 ≤ padding) (hframe : src.frame_uniform)
    (hfg : ∃ r c, src.foreground r c) :
    ∃ win : Rect, CropMask src point padding = Except.ok win
      ∧ win.inside src
      ∧ ∀ r c, src.foreground r c → win.contains r c := by
  obtain ⟨r0, c0, hfg0⟩ := hfg
  have hoff := foreground_off_frame src hframe
  have hrows : 2 ≤ src.rows := by have := (hoff r0 c0 hfg0).1; omega
  have hcols : 2 ≤ src.cols := by have := (hoff r0 c0 hfg0).2; omega
  obtain ⟨n, hn, hedges⟩ := count_border_edges_spec src hrows hcols
  by_cases h4 : n < 4
  · refine ⟨⟨0, 0, src.cols, src.rows⟩, ?_, ?_, ?_⟩
    · simp only [CropMask, hn, if_pos h4]
    · unfold Rect.inside
      dsimp only
      omega
    · intro r c hf
      unfold Rect.contains
      dsimp only
      have := hf.1
      have := hf.2.1
      omega
  · obtain ⟨hcol, hrow⟩ := hedges h4
    obtain ⟨win, hpeel, hx, hy, hw, hh, hr, hb, hall⟩ :=
      peel_spec src hframe ⟨r0, c0, hfg0⟩ hcol hrow
    obtain ⟨hins, hcont⟩ := add_padding_spec src win padding hpad hx hy hw hh hr hb
    refine ⟨add_padding src win padding, ?_, hins, ?_⟩
    · simp only [CropMask, hn, if_neg h4, hpeel]
    · intro r c hf
      obtain ⟨a1, a2, a3, a4⟩ := hall r c hf
      exact hcont r c a1 a2 a3 a4

/-- Witness for C14: the 7x7 mask with the single foreground pixel (3, 3)
and padding 2. -/
theorem crop_mask_keeps_foreground_witness :
    ∃ win : Rect, CropMask mask_centre_dot 0 2 = Except.ok win
      ∧ win.inside mask_centre_dot
      ∧ ∀ r c, mask_centre_dot.foreground r c → win.contains r c :=
  crop_mask_keeps_foreground mask_centre_dot 0 2 (by decide)
    (by
      constructor
      · intro c hc
        have hc7 : c < 7 := by
          have : mask_centre_dot.cols = 7 := rfl
          omega
        interval_cases c <;> exact ⟨rfl, rfl⟩
      · intro r hr
        have hr7 : r < 7 := by
          have : mask_centre_dot.rows = 7 := rfl
          omega
        interval_cases r <;> exact ⟨rfl, rfl⟩)
    ⟨3, 3, by decide, by decide, by decide⟩

end caffe
